import Mathlib

/-!
# ToDoApp: the `TaskManager` core of `src/app.js`

A shallow embedding of the task store (`class TaskManager`): text and index
validation, the four mutating operations, and persistence through
`localStorage` with `JSON.stringify` / `JSON.parse`.

Modelling conventions

* A JavaScript string is the list of its UTF-16 code units (`JSString`), so that
  `.length` is `List.length` and lone surrogates are representable.
* A JavaScript number is `JSNumber`: the three non-finite values, negative zero,
  and `fin q` for a finite value `q` given exactly as a rational.
* A JavaScript value is `JSValue`: `undefined` plus the values `JSON.parse` can
  produce.  Plain objects are property lists kept in property-enumeration order.
* An exception is an explicit result (`none`, or `Completion.threw`).
* The clock readings and the success of `localStorage.setItem` are inputs of each
  call (`Env`).  Event listeners are not modelled: `dispatchEvent` appends to the
  list of events emitted by the call.
-/

namespace ToDoApp

/-! ## Strings -/

/-- A JavaScript string: its UTF-16 code units. -/
abbrev JSString := List Nat

/-- UTF-16 code units of one Unicode scalar value. -/
def utf16 (c : Char) : List Nat :=
  if c.toNat < 0x10000 then [c.toNat]
  else [0xD800 + (c.toNat - 0x10000) / 0x400, 0xDC00 + (c.toNat - 0x10000) % 0x400]

/-- The JavaScript string written as the literal `s`. -/
def js (s : String) : JSString := s.toList.flatMap utf16

-- Constants (app.js lines 2-4)
def STORAGE_KEY : JSString := js "tasks"
def MAX_TASK_LENGTH : Nat := 200
def MIN_TASK_LENGTH : Nat := 1

/-- Code units removed by `String.prototype.trim`: WhiteSpace and LineTerminator. -/
def isTrimUnit (c : Nat) : Bool :=
  c == 0x0009 || c == 0x000A || c == 0x000B || c == 0x000C || c == 0x000D ||
  c == 0x0020 || c == 0x00A0 || c == 0x1680 || (0x2000 ≤ c && c ≤ 0x200A) ||
  c == 0x2028 || c == 0x2029 || c == 0x202F || c == 0x205F || c == 0x3000 ||
  c == 0xFEFF

/-- `String.prototype.trim`. -/
def trim (s : JSString) : JSString :=
  ((s.dropWhile isTrimUnit).reverse.dropWhile isTrimUnit).reverse

/-! ## Numbers and values -/

/-- A JavaScript Number. -/
inductive JSNumber where
  | nan
  | posInf
  | negInf
  | negZero
  | fin (q : ℚ)
  deriving DecidableEq

/-- `Number.isInteger(n)`. -/
def JSNumber.isInteger : JSNumber → Bool
  | .fin q => q.den == 1
  | .negZero => true
  | _ => false

/-- `n >= 0`. -/
def JSNumber.geZero : JSNumber → Bool
  | .fin q => decide (0 ≤ q)
  | .negZero => true
  | .posInf => true
  | _ => false

/-- `n < len` for an array length `len`. -/
def JSNumber.ltLength (len : Nat) : JSNumber → Bool
  | .fin q => decide (q < (len : ℚ))
  | .negZero => decide (0 < len)
  | .negInf => true
  | _ => false

/-- The array position denoted by a number that is a non-negative integer. -/
def JSNumber.toIndex : JSNumber → Nat
  | .fin q => q.num.toNat
  | _ => 0

/-- A JavaScript value: `undefined`, or a value of the JSON data model. -/
inductive JSValue where
  | undefined
  | null
  | bool (b : Bool)
  | num (n : JSNumber)
  | str (s : JSString)
  | arr (xs : List JSValue)
  | obj (ps : List (JSString × JSValue))

/-- The results of `typeof` on these values. -/
inductive JSType where
  | undefined
  | object
  | boolean
  | number
  | string
  deriving DecidableEq

/-- The `typeof` operator. -/
def typeof : JSValue → JSType
  | .undefined => .undefined
  | .null => .object
  | .bool _ => .boolean
  | .num _ => .number
  | .str _ => .string
  | .arr _ => .object
  | .obj _ => .object

/-- ToBoolean: the truthiness used by `&&` and `!`. -/
def toBoolean : JSValue → Bool
  | .undefined => false
  | .null => false
  | .bool b => b
  | .num .nan => false
  | .num .negZero => false
  | .num (.fin q) => decide (q ≠ 0)
  | .num _ => true
  | .str s => !s.isEmpty
  | .arr _ => true
  | .obj _ => true

/-! ## Properties of plain objects -/

/-- Decimal digit code unit. -/
def isDigit (c : Nat) : Bool := 48 ≤ c && c ≤ 57

/-- Value of a run of decimal digits, most significant first. -/
def digitsValue (ds : List Nat) : Nat := ds.foldl (fun acc d => acc * 10 + (d - 48)) 0

/-- The array index a property key denotes, if it is one: a canonical decimal
numeral below `2^32 - 1`.  Such keys are enumerated first, in ascending order. -/
def arrayIndex? (k : JSString) : Option Nat :=
  if k.all isDigit && !k.isEmpty && (k.head? != some 48 || k.length == 1)
      && digitsValue k < 2 ^ 32 - 1 then
    some (digitsValue k)
  else none

/-- Own-property lookup in a property list. -/
def lookupProp (k : JSString) : List (JSString × JSValue) → Option JSValue
  | [] => none
  | (k', v) :: ps => if k' = k then some v else lookupProp k ps

/-- Whether a key is present. -/
def hasProp (k : JSString) (ps : List (JSString × JSValue)) : Bool :=
  (lookupProp k ps).isSome

/-- Overwrite the value of a key that is present (its position is kept). -/
def replaceProp (k : JSString) (v : JSValue) :
    List (JSString × JSValue) → List (JSString × JSValue)
  | [] => []
  | (k', v') :: ps => if k' = k then (k', v) :: ps else (k', v') :: replaceProp k v ps

/-- Place a new array-index key `k` (index `n`) among the array-index keys. -/
def insertIndexProp (n : Nat) (k : JSString) (v : JSValue) :
    List (JSString × JSValue) → List (JSString × JSValue)
  | [] => [(k, v)]
  | (k', v') :: ps =>
    match arrayIndex? k' with
    | some m => if m < n then (k', v') :: insertIndexProp n k v ps else (k, v) :: (k', v') :: ps
    | none => (k, v) :: (k', v') :: ps

/-- Create or overwrite the own data property `k` of a plain object. -/
def setProp (ps : List (JSString × JSValue)) (k : JSString) (v : JSValue) :
    List (JSString × JSValue) :=
  if hasProp k ps then replaceProp k v ps
  else match arrayIndex? k with
    | some n => insertIndexProp n k v ps
    | none => ps ++ [(k, v)]

/-- Property read `v.k`, for the keys this program reads (`id`, `text`, `completed`,
`createdAt`), none of which is defined on a built-in prototype.  `none` is the
TypeError of reading a property of `undefined` or `null`. -/
def getProp (v : JSValue) (k : JSString) : Option JSValue :=
  match v with
  | .undefined => none
  | .null => none
  | .obj ps => some ((lookupProp k ps).getD .undefined)
  | _ => some .undefined

/-- Property write `v.k = x`.  `none` is the TypeError thrown, in the strict code of
a class body, when the receiver is `undefined`, `null` or a primitive.  An array
receiver is outside this value model (arrays carry no named properties here) and is
reported as `none` too; `validateTasks` and `createTask` admit plain objects only. -/
def putProp (v : JSValue) (k : JSString) (x : JSValue) : Option JSValue :=
  match v with
  | .obj ps => some (.obj (setProp ps k x))
  | _ => none

/-! ## JSON.stringify -/

/-- Lowercase hexadecimal digit (a code unit) of a value below 16. -/
def hexDigit (n : Nat) : Nat := if n < 10 then 48 + n else 87 + n

/-- UnicodeEscape: a backslash, `u`, and four lowercase hexadecimal digits. -/
def unicodeEscape (c : Nat) : List Nat :=
  [0x5C, 0x75, hexDigit (c / 4096 % 16), hexDigit (c / 256 % 16),
    hexDigit (c / 16 % 16), hexDigit (c % 16)]

def isHighSurrogate (c : Nat) : Bool := 0xD800 ≤ c && c ≤ 0xDBFF
def isLowSurrogate (c : Nat) : Bool := 0xDC00 ≤ c && c ≤ 0xDFFF

/-- The output of QuoteJSONString for one code unit that is not part of a
surrogate pair. -/
def quoteUnit (c : Nat) : List Nat :=
  if c = 0x08 then [0x5C, 0x62]
  else if c = 0x09 then [0x5C, 0x74]
  else if c = 0x0A then [0x5C, 0x6E]
  else if c = 0x0C then [0x5C, 0x66]
  else if c = 0x0D then [0x5C, 0x72]
  else if c = 0x22 then [0x5C, 0x22]
  else if c = 0x5C then [0x5C, 0x5C]
  else if c < 0x20 || isHighSurrogate c || isLowSurrogate c then unicodeEscape c
  else [c]

/-- The characters QuoteJSONString writes between the quotes: a surrogate pair is
copied, every other code unit goes through `quoteUnit` (a lone surrogate is
escaped). -/
def quoteBody : JSString → List Nat
  | [] => []
  | [c] => quoteUnit c
  | c :: d :: rest =>
    if isHighSurrogate c && isLowSurrogate d then c :: d :: quoteBody rest
    else quoteUnit c ++ quoteBody (d :: rest)

/-- QuoteJSONString. -/
def quoteJSONString (s : JSString) : List Nat := 0x22 :: (quoteBody s ++ [0x22])

/-- Decimal digits of a natural number, most significant first (`fuel` bounds the
number of digits). -/
def natDigitsAux : Nat → Nat → List Nat → List Nat
  | 0, _, acc => acc
  | fuel + 1, n, acc =>
    if n / 10 = 0 then (48 + n % 10) :: acc
    else natDigitsAux fuel (n / 10) ((48 + n % 10) :: acc)

/-- Decimal numeral of a natural number. -/
def natDigits (n : Nat) : List Nat := natDigitsAux (n + 1) n []

/-- Number::toString as used by JSON.stringify on a finite value.  An integer of
magnitude below `2^53` prints as its decimal numeral.  Every other finite value
prints through `fmt`, the shortest-round-trip formatting of the platform, which
this development leaves open. -/
def numberToString (fmt : ℚ → JSString) (q : ℚ) : JSString :=
  if q.den = 1 ∧ q.num.natAbs < 2 ^ 53 then
    (if q.num < 0 then [0x2D] else []) ++ natDigits q.num.natAbs
  else fmt q

/-- SerializeJSONProperty on a number: a non-finite number prints as `null`. -/
def stringifyNumber (fmt : ℚ → JSString) : JSNumber → JSString
  | .fin q => numberToString fmt q
  | .negZero => [48]
  | _ => js "null"

mutual
/-- SerializeJSONProperty: `none` is the result `undefined`. -/
def stringifyValue (fmt : ℚ → JSString) : JSValue → Option JSString
  | .undefined => none
  | .null => some (js "null")
  | .bool true => some (js "true")
  | .bool false => some (js "false")
  | .num n => some (stringifyNumber fmt n)
  | .str s => some (quoteJSONString s)
  | .arr xs => some (0x5B :: (stringifyElems fmt xs ++ [0x5D]))
  | .obj ps => some (0x7B :: (stringifyProps fmt false ps ++ [0x7D]))
/-- SerializeJSONArray: elements separated by commas, `undefined` printed as `null`. -/
def stringifyElems (fmt : ℚ → JSString) : List JSValue → JSString
  | [] => []
  | [x] => (stringifyValue fmt x).getD (js "null")
  | x :: y :: xs => (stringifyValue fmt x).getD (js "null") ++ 0x2C :: stringifyElems fmt (y :: xs)
/-- SerializeJSONObject: the members whose value is not `undefined`, separated by
commas; `sep` tells whether a member has been written already. -/
def stringifyProps (fmt : ℚ → JSString) (sep : Bool) : List (JSString × JSValue) → JSString
  | [] => []
  | (k, v) :: ps =>
    match stringifyValue fmt v with
    | none => stringifyProps fmt sep ps
    | some s =>
      (if sep then [0x2C] else []) ++ quoteJSONString k ++ 0x3A :: s ++ stringifyProps fmt true ps
end

/-- `JSON.stringify(tasks)` for an array `tasks`. -/
def JSONstringify (fmt : ℚ → JSString) (tasks : List JSValue) : JSString :=
  0x5B :: (stringifyElems fmt tasks ++ [0x5D])

/-! ## JSON.parse -/

/-- Number of binary digits of `n` (`fuel` bounds the recursion). -/
def bitLengthAux : Nat → Nat → Nat
  | 0, _ => 0
  | fuel + 1, n => if n = 0 then 0 else bitLengthAux fuel (n / 2) + 1

/-- Number of binary digits of `n`. -/
def bitLength (n : Nat) : Nat := bitLengthAux n n

/-- The pair `(num, den)` with `num / den = (a / b) / 2^e`. -/
def scaleBy (a b : Nat) (e : Int) : Nat × Nat :=
  if 0 ≤ e then (a, b * 2 ^ e.toNat) else (a * 2 ^ (-e).toNat, b)

/-- The binary exponent `e` at which `a / b` is rounded: the significand
`(a / b) / 2^e` lies in `[2^52, 2^53)`, unless that would put `e` below `-1074`, the
exponent of the subnormal values. -/
def binaryExponent (a b : Nat) : Int :=
  -- `2^52 < (a / b) / 2^e0 < 2^54`
  let e0 : Int := (bitLength a : Int) - (bitLength b : Int) - 53
  let s0 := scaleBy a b e0
  let e1 : Int := if 2 ^ 53 * s0.2 ≤ s0.1 then e0 + 1 else e0
  if e1 < -1074 then -1074 else e1

/-- Round `a / b` to an integer multiple `m * 2^e` of `2^e`, ties to the even `m`; a
result of magnitude `2^1024` or more is infinite. -/
def roundAt (neg : Bool) (a b : Nat) (e : Int) : JSNumber :=
  let s := scaleBy a b e
  let q := s.1 / s.2
  let r := s.1 % s.2
  let m := if s.2 < 2 * r ∨ (2 * r = s.2 ∧ q % 2 = 1) then q + 1 else q
  if m = 0 then (if neg then .negZero else .fin 0)
  else if 971 < e ∨ (e = 971 ∧ m = 2 ^ 53) then (if neg then .negInf else .posInf)
  else .fin ((if neg then -1 else 1) * (m : ℚ) * (2 : ℚ) ^ e)

/-- The Number value of the non-negative rational `a / b`, negated if `neg`: the
nearest IEEE 754 binary64 value, ties to the even significand, overflow to infinity. -/
def toDouble (neg : Bool) (a b : Nat) : JSNumber :=
  if a = 0 then (if neg then .negZero else .fin 0)
  else roundAt neg a b (binaryExponent a b)

/-- JSON white space. -/
def isJsonWs (c : Nat) : Bool := c == 0x20 || c == 0x09 || c == 0x0A || c == 0x0D

/-- Skip JSON white space. -/
def skipWs : List Nat → List Nat
  | [] => []
  | c :: cs => if isJsonWs c then skipWs cs else c :: cs

/-- The longest run of decimal digits at the front, and what follows it. -/
def takeDigits : List Nat → List Nat × List Nat
  | [] => ([], [])
  | c :: cs => if isDigit c then (c :: (takeDigits cs).1, (takeDigits cs).2) else ([], c :: cs)

/-- Optional fraction of a JSON number: its digits and the remaining input. -/
def parseFraction (cs : List Nat) : Option (List Nat × List Nat) :=
  match cs with
  | c :: rest =>
    if c = 0x2E then
      (if (takeDigits rest).1.isEmpty then none else some (takeDigits rest))
    else some ([], cs)
  | [] => some ([], cs)

/-- Optional exponent of a JSON number: its value and the remaining input. -/
def parseExponent (cs : List Nat) : Option (Int × List Nat) :=
  match cs with
  | c :: rest =>
    if c = 0x65 ∨ c = 0x45 then
      match rest with
      | d :: rest1 =>
        if d = 0x2D then
          (if (takeDigits rest1).1.isEmpty then none
           else some (-(digitsValue (takeDigits rest1).1 : Int), (takeDigits rest1).2))
        else if d = 0x2B then
          (if (takeDigits rest1).1.isEmpty then none
           else some ((digitsValue (takeDigits rest1).1 : Int), (takeDigits rest1).2))
        else
          (if (takeDigits rest).1.isEmpty then none
           else some ((digitsValue (takeDigits rest).1 : Int), (takeDigits rest).2))
      | [] => none
    else some (0, cs)
  | [] => some (0, cs)

/-- The Number value of the numeral with significand digits `ds`, `fl` of which
follow the decimal point, and decimal exponent `ex`. -/
def numeralValue (neg : Bool) (ds : List Nat) (fl : Nat) (ex : Int) : JSNumber :=
  if 0 ≤ ex - fl then toDouble neg (digitsValue ds * 10 ^ (ex - fl).toNat) 1
  else toDouble neg (digitsValue ds) (10 ^ (fl - ex).toNat)

/-- A JSON number without its sign: `0` or a numeral without leading zero, an
optional fraction, an optional exponent. -/
def parseUnsigned (neg : Bool) (cs : List Nat) : Option (JSValue × List Nat) :=
  match cs with
  | c :: rest =>
    if isDigit c then
      let ip : List Nat × List Nat := if c = 48 then ([48], rest) else takeDigits cs
      match parseFraction ip.2 with
      | none => none
      | some (fs, r1) =>
        match parseExponent r1 with
        | none => none
        | some (ex, r2) => some (.num (numeralValue neg (ip.1 ++ fs) fs.length ex), r2)
    else none
  | [] => none

/-- A JSON number. -/
def parseNumber (cs : List Nat) : Option (JSValue × List Nat) :=
  match cs with
  | c :: rest => if c = 0x2D then parseUnsigned true rest else parseUnsigned false cs
  | [] => none

/-- Value of a hexadecimal digit. -/
def hexValue (c : Nat) : Option Nat :=
  if 48 ≤ c ∧ c ≤ 57 then some (c - 48)
  else if 97 ≤ c ∧ c ≤ 102 then some (c - 87)
  else if 65 ≤ c ∧ c ≤ 70 then some (c - 55)
  else none

/-- The code unit written by four hexadecimal digits. -/
def hex4 (a b c d : Nat) : Option Nat :=
  match hexValue a, hexValue b, hexValue c, hexValue d with
  | some x, some y, some z, some w => some (x * 4096 + y * 256 + z * 16 + w)
  | _, _, _, _ => none

/-- The code unit denoted by a one-letter escape. -/
def simpleEscape (c : Nat) : Option Nat :=
  if c = 0x22 then some 0x22
  else if c = 0x5C then some 0x5C
  else if c = 0x2F then some 0x2F
  else if c = 0x62 then some 0x08
  else if c = 0x66 then some 0x0C
  else if c = 0x6E then some 0x0A
  else if c = 0x72 then some 0x0D
  else if c = 0x74 then some 0x09
  else none

/-- Put a code unit in front of a parsed string. -/
def consUnit (c : Nat) : Option (JSString × List Nat) → Option (JSString × List Nat)
  | some (s, rest) => some (c :: s, rest)
  | none => none

/-- The body of a JSON string, after the opening quote, up to and including the
closing quote.  `fuel` bounds the number of code units read. -/
def parseCharsAux : Nat → List Nat → Option (JSString × List Nat)
  | 0, _ => none
  | _ + 1, [] => none
  | fuel + 1, c :: rest =>
    if c = 0x22 then some ([], rest)
    else if c = 0x5C then
      match rest with
      | [] => none
      | e :: rest1 =>
        if e = 0x75 then
          match rest1 with
          | h1 :: h2 :: h3 :: h4 :: rest2 =>
            match hex4 h1 h2 h3 h4 with
            | some u => consUnit u (parseCharsAux fuel rest2)
            | none => none
          | _ => none
        else
          match simpleEscape e with
          | some u => consUnit u (parseCharsAux fuel rest1)
          | none => none
    else if c < 0x20 then none
    else consUnit c (parseCharsAux fuel rest)

/-- The body of a JSON string. -/
def parseChars (cs : List Nat) : Option (JSString × List Nat) := parseCharsAux cs.length cs

/-- A JSON literal name. -/
def expectLit (lit : List Nat) (v : JSValue) (cs : List Nat) : Option (JSValue × List Nat) :=
  if lit.isPrefixOf cs then some (v, cs.drop lit.length) else none

mutual
/-- A JSON value with leading white space. -/
def parseValue : Nat → List Nat → Option (JSValue × List Nat)
  | 0, _ => none
  | fuel + 1, cs =>
    match skipWs cs with
    | [] => none
    | c :: rest =>
      if c = 0x22 then
        match parseChars rest with
        | some (s, r) => some (.str s, r)
        | none => none
      else if c = 0x5B then
        match skipWs rest with
        | [] => none
        | d :: r =>
          if d = 0x5D then some (.arr [], r)
          else
            match parseElems fuel (d :: r) with
            | some (xs, r1) => some (.arr xs, r1)
            | none => none
      else if c = 0x7B then
        match skipWs rest with
        | [] => none
        | d :: r =>
          if d = 0x7D then some (.obj [], r)
          else
            match parseMembers fuel [] (d :: r) with
            | some (ps, r1) => some (.obj ps, r1)
            | none => none
      else if c = 0x74 then expectLit (js "true") (.bool true) (c :: rest)
      else if c = 0x66 then expectLit (js "false") (.bool false) (c :: rest)
      else if c = 0x6E then expectLit (js "null") .null (c :: rest)
      else parseNumber (c :: rest)
/-- The elements of a non-empty JSON array and its closing bracket. -/
def parseElems : Nat → List Nat → Option (List JSValue × List Nat)
  | 0, _ => none
  | fuel + 1, cs =>
    match parseValue fuel cs with
    | none => none
    | some (v, r) =>
      match skipWs r with
      | [] => none
      | c :: r1 =>
        if c = 0x2C then
          match parseElems fuel r1 with
          | some (xs, r2) => some (v :: xs, r2)
          | none => none
        else if c = 0x5D then some ([v], r1)
        else none
/-- The members of a non-empty JSON object and its closing brace; `acc` holds the
properties created so far.  A repeated key overwrites the earlier value. -/
def parseMembers : Nat → List (JSString × JSValue) → List Nat →
    Option (List (JSString × JSValue) × List Nat)
  | 0, _, _ => none
  | fuel + 1, acc, cs =>
    match skipWs cs with
    | [] => none
    | q :: r0 =>
      if q = 0x22 then
        match parseChars r0 with
        | none => none
        | some (k, r1) =>
          match skipWs r1 with
          | [] => none
          | c :: r2 =>
            if c = 0x3A then
              match parseValue fuel r2 with
              | none => none
              | some (v, r3) =>
                match skipWs r3 with
                | [] => none
                | d :: r4 =>
                  if d = 0x2C then parseMembers fuel (setProp acc k v) r4
                  else if d = 0x7D then some (setProp acc k v, r4)
                  else none
            else none
      else none
end

/-- `JSON.parse(text)`: `none` is the SyntaxError. -/
def JSONparse (text : JSString) : Option JSValue :=
  match parseValue (2 * text.length + 1) text with
  | some (v, rest) => if (skipWs rest).isEmpty then some v else none
  | none => none

/-! ## TaskManager -/

/-- What a call reads from its environment. -/
structure Env where
  /-- The value of `new Date().toISOString()` during the call. -/
  isoNow : JSString
  /-- The value of `Date.now()` during the call. -/
  msNow : JSNumber
  /-- Whether `localStorage.setItem` accepts the given value (it throws otherwise,
  for instance when the quota is exceeded). -/
  setItemOk : JSString → Bool
  /-- Number::toString on the finite values that are not integers below `2^53`. -/
  fmt : ℚ → JSString

/-- The state: `this.tasks` and the item stored under `STORAGE_KEY`. -/
structure Store where
  tasks : List JSValue
  blob : Option JSString

/-- The events a call dispatches, with their `detail`. -/
inductive Event where
  | error (message : JSString)
  | saved
  | taskAdded (task : JSValue)
  | taskToggled (task : JSValue) (index : JSValue)
  | taskDeleted (task : JSValue) (index : JSValue)
  | taskUpdated (task : JSValue) (index : JSValue)

/-- How a call ends: it returns a boolean, or a TypeError escapes. -/
inductive Completion where
  | returned (b : Bool)
  | threw
  deriving DecidableEq

/-- The outcome of a call: how it ended, the state it left, the events it
dispatched, in order. -/
structure Step where
  completion : Completion
  store : Store
  events : List Event

/-- The value of `typeof task.k`; `none` if reading the property throws. -/
def propType (task : JSValue) (k : JSString) : Option JSType := (getProp task k).map typeof

/-- The callback of `tasks.every` in `validateTasks` (app.js lines 57-63).  The
property reads are guarded by `task &&`, so none of them throws. -/
def taskShapeOk (task : JSValue) : Bool :=
  toBoolean task &&
  propType task (js "id") == some JSType.number &&
  propType task (js "text") == some JSType.string &&
  propType task (js "completed") == some JSType.boolean &&
  propType task (js "createdAt") == some JSType.string

/-- `validateTasks(tasks)` (app.js lines 56-64): `Array.isArray(tasks)` and the
callback holds of every element. -/
def validateTasks : JSValue → Bool
  | .arr xs => xs.all taskShapeOk
  | _ => false

/-- The elements of an array value. -/
def arrayElems : JSValue → List JSValue
  | .arr xs => xs
  | _ => []

/-- `loadTasks()` (app.js lines 41-49) on the stored item `blob` (`none` when
`getItem` returns `null`, which `JSON.parse` reads as the text `null`).  A
SyntaxError is caught and gives the empty array. -/
def loadTasks (blob : Option JSString) : List JSValue :=
  match JSONparse (blob.getD (js "null")) with
  | some tasks => if validateTasks tasks then arrayElems tasks else []
  | none => []

/-- The constructor (app.js lines 28-31). -/
def construct (blob : Option JSString) : Store := ⟨loadTasks blob, blob⟩

/-- The expression `text?.trim()`: `undefined` for `undefined` and `null`, the trimmed
string for a string, and a TypeError (`none`) for every other value of this model,
whose `trim` property is not a function. -/
def optionalTrim : JSValue → Option JSValue
  | .undefined => some .undefined
  | .null => some .undefined
  | .str s => some (.str (trim s))
  | _ => none

/-- The comparison `trimmedText?.length >= lo && trimmedText?.length <= hi`. -/
def lengthWithin (lo hi : Nat) : JSValue → Bool
  | .str t => decide (lo ≤ t.length) && decide (t.length ≤ hi)
  | _ => false

/-- `validateTask(text)` (app.js lines 71-76); `none` is the TypeError thrown by
`text?.trim()`. -/
def validateTask (text : JSValue) : Option Bool :=
  match optionalTrim text with
  | none => none
  | some trimmedText =>
    some (typeof text == JSType.string && lengthWithin MIN_TASK_LENGTH MAX_TASK_LENGTH trimmedText)

/-- `createTask(text)` (app.js lines 89-98); `none` is the TypeError of `text.trim()`
on a value that is not a string. -/
def createTask (env : Env) (text : JSValue) : Option JSValue :=
  match text with
  | .str s =>
    some (.obj [(js "id", .num env.msNow), (js "text", .str (trim s)),
      (js "completed", .bool false), (js "createdAt", .str env.isoNow),
      (js "updatedAt", .null)])
  | _ => none

/-- `isValidIndex(index)` (app.js lines 209-211). -/
def isValidIndex (tasks : List JSValue) (index : JSValue) : Bool :=
  match index with
  | .num n => n.isInteger && n.geZero && n.ltLength tasks.length
  | _ => false

/-- The array position of a valid index. -/
def positionOf (index : JSValue) : Nat :=
  match index with
  | .num n => n.toIndex
  | _ => 0

/-- `save()` (app.js lines 219-229): the new state and the event dispatched.  A
failed write is caught: the stored item stays as it was. -/
def save (env : Env) (st : Store) : Store × Event :=
  if env.setItemOk (JSONstringify env.fmt st.tasks) then
    (⟨st.tasks, some (JSONstringify env.fmt st.tasks)⟩, Event.saved)
  else (st, Event.error (js "Error saving tasks"))

/-- `addTask(text)` (app.js lines 110-123). -/
def addTask (env : Env) (st : Store) (text : JSValue) : Step :=
  match validateTask text with
  | none => ⟨.threw, st, []⟩
  | some false => ⟨.returned false, st, [Event.error (js "Invalid task text")]⟩
  | some true =>
    match createTask env text with
    | none => ⟨.threw, st, []⟩
    | some task =>
      let r := save env ⟨st.tasks ++ [task], st.blob⟩
      ⟨.returned true, r.1, [r.2, Event.taskAdded task]⟩

/-- `toggleTask(index)` (app.js lines 130-146). -/
def toggleTask (env : Env) (st : Store) (index : JSValue) : Step :=
  if !isValidIndex st.tasks index then
    ⟨.returned false, st, [Event.error (js "Invalid task index")]⟩
  else
    match st.tasks[positionOf index]? with
    | none => ⟨.threw, st, []⟩
    | some task =>
      match getProp task (js "completed") with
      | none => ⟨.threw, st, []⟩
      | some c =>
        match putProp task (js "completed") (.bool (!toBoolean c)) with
        | none => ⟨.threw, st, []⟩
        | some task1 =>
          match putProp task1 (js "updatedAt") (.str env.isoNow) with
          | none => ⟨.threw, st, []⟩
          | some task2 =>
            let r := save env ⟨st.tasks.set (positionOf index) task2, st.blob⟩
            ⟨.returned true, r.1, [r.2, Event.taskToggled task2 index]⟩

/-- `deleteTask(index)` (app.js lines 153-167). -/
def deleteTask (env : Env) (st : Store) (index : JSValue) : Step :=
  if !isValidIndex st.tasks index then
    ⟨.returned false, st, [Event.error (js "Invalid task index")]⟩
  else
    let deletedTask := (st.tasks[positionOf index]?).getD .undefined
    let r := save env ⟨st.tasks.eraseIdx (positionOf index), st.blob⟩
    ⟨.returned true, r.1, [r.2, Event.taskDeleted deletedTask index]⟩

/-- The comparison `trimmedText === v` for a string `trimmedText`. -/
def strictEqStr (trimmedText : JSString) : JSValue → Bool
  | .str t => decide (trimmedText = t)
  | _ => false

/-- `updateTask(index, newText)` (app.js lines 175-194).  The guard evaluates
`validateTask(newText)` only when the index is valid. -/
def updateTask (env : Env) (st : Store) (index newText : JSValue) : Step :=
  if !isValidIndex st.tasks index then
    ⟨.returned false, st, [Event.error (js "Invalid task update")]⟩
  else
    match validateTask newText with
    | none => ⟨.threw, st, []⟩
    | some false => ⟨.returned false, st, [Event.error (js "Invalid task update")]⟩
    | some true =>
      match st.tasks[positionOf index]?, newText with
      | some task, .str s =>
        match getProp task (js "text") with
        | none => ⟨.threw, st, []⟩
        | some old =>
          if strictEqStr (trim s) old then ⟨.returned false, st, []⟩
          else
            match putProp task (js "text") (.str (trim s)) with
            | none => ⟨.threw, st, []⟩
            | some task1 =>
              match putProp task1 (js "updatedAt") (.str env.isoNow) with
              | none => ⟨.threw, st, []⟩
              | some task2 =>
                let r := save env ⟨st.tasks.set (positionOf index) task2, st.blob⟩
                ⟨.returned true, r.1, [r.2, Event.taskUpdated task2 index]⟩
      | _, _ => ⟨.threw, st, []⟩

/-- `getTasks()` (app.js lines 200-202): a copy of the array. -/
def getTasks (st : Store) : List JSValue := st.tasks

/-! ## Statements of the specification -/

/-- The value `index` is the integer `i`: the number `i`, or negative zero for `0`. -/
def Denotes (index : JSValue) (i : Nat) : Prop :=
  index = .num (.fin (i : ℚ)) ∨ (i = 0 ∧ index = .num .negZero)

/-- An element with a numeric `id`, a string `text`, a boolean `completed` and a
string `createdAt`, in the words of the specification. -/
def HasTaskShape (task : JSValue) : Prop :=
  ∃ ps, task = .obj ps ∧
    (∃ n, lookupProp (js "id") ps = some (.num n)) ∧
    (∃ s, lookupProp (js "text") ps = some (.str s)) ∧
    (∃ b, lookupProp (js "completed") ps = some (.bool b)) ∧
    (∃ s, lookupProp (js "createdAt") ps = some (.str s))

/-- An acceptable payload: an array whose every element has the task shape. -/
def Acceptable (payload : JSValue) : Prop :=
  ∃ xs, payload = .arr xs ∧ ∀ t ∈ xs, HasTaskShape t

/-- Number of code points of a string: a surrogate pair counts once. -/
def codePoints : JSString → Nat
  | [] => 0
  | [_] => 1
  | c :: d :: rest =>
    if isHighSurrogate c && isLowSurrogate d then codePoints rest + 1
    else codePoints (d :: rest) + 1

/-- The text invariant of the data model on one task: `text` is a string equal to
its own trim, of length between 1 and 200. -/
def TextOk (task : JSValue) : Prop :=
  ∃ s, getProp task (js "text") = some (.str s) ∧ trim s = s ∧
    MIN_TASK_LENGTH ≤ s.length ∧ s.length ≤ MAX_TASK_LENGTH

/-- A call of one of the four mutating methods. -/
inductive Call where
  | add (text : JSValue)
  | toggle (index : JSValue)
  | delete (index : JSValue)
  | update (index : JSValue) (newText : JSValue)

/-- Perform one call. -/
def perform (env : Env) (st : Store) : Call → Step
  | .add text => addTask env st text
  | .toggle index => toggleTask env st index
  | .delete index => deleteTask env st index
  | .update index newText => updateTask env st index newText

/-- The state after a sequence of calls, each with its own environment. -/
def run (st : Store) : List (Env × Call) → Store
  | [] => st
  | (env, call) :: rest => run (perform env st call).store rest

/-- The task the specification describes for `add(text)`: the identifier derived from
the clock, the trimmed text, not completed, created now, never updated. -/
def specNewTask (env : Env) (text : JSString) : JSValue :=
  .obj [(js "id", .num env.msNow), (js "text", .str (trim text)),
    (js "completed", .bool false), (js "createdAt", .str env.isoNow),
    (js "updatedAt", .null)]

/-- The event `save()` dispatches when the array `tasks` is written. -/
def saveEvent (env : Env) (tasks : List JSValue) : Event :=
  if env.setItemOk (JSONstringify env.fmt tasks) then Event.saved
  else Event.error (js "Error saving tasks")

/-- The stored item after `save()` of the array `tasks`, `blob` being the item before. -/
def savedBlob (env : Env) (tasks : List JSValue) (blob : Option JSString) : Option JSString :=
  if env.setItemOk (JSONstringify env.fmt tasks) then some (JSONstringify env.fmt tasks)
  else blob

/-- A sample environment: a fixed clock, a storage that accepts every write. -/
def sampleEnv : Env :=
  ⟨js "2024-01-01T00:00:00.000Z", .fin 1704067200000, fun _ => true, fun _ => []⟩

/-- A sample environment whose storage rejects every write. -/
def fullEnv : Env :=
  ⟨js "2024-01-02T00:00:00.000Z", .fin 1704153600000, fun _ => false, fun _ => []⟩

/-- A sample task. -/
def sampleTask : JSValue :=
  .obj [(js "id", .num (.fin 1)), (js "text", .str (js "Buy milk")),
    (js "completed", .bool false), (js "createdAt", .str (js "2023-12-31T00:00:00.000Z")),
    (js "updatedAt", .null)]

/-- A sample store holding two tasks. -/
def sampleStore : Store :=
  ⟨[sampleTask, .obj [(js "id", .num (.fin 2)), (js "text", .str (js "Walk")),
    (js "completed", .bool true), (js "createdAt", .str (js "2023-12-31T01:00:00.000Z")),
    (js "updatedAt", .str (js "2023-12-31T02:00:00.000Z"))]], none⟩

/-- The environment `env` with a storage that accepts every write. -/
def okEnv (env : Env) : Env := ⟨env.isoNow, env.msNow, fun _ => true, env.fmt⟩

/-- The length of the text of a task, when the text is a string. -/
def textLength? (task : JSValue) : Option Nat :=
  match getProp task (js "text") with
  | some (.str s) => some s.length
  | _ => none

/-- A stored item that `validateTasks` accepts although its only task has the empty
text. -/
def emptyTextBlob : JSString :=
  js "[\x7b\"id\":1,\"text\":\"\",\"completed\":false,\"createdAt\":\"\"\x7d]"

/-- The empty store. -/
def emptyStore : Store := ⟨[], none⟩

/-- A list of UTF-16 code units: every element is below `2^16`. -/
def IsUnits (s : JSString) : Prop := ∀ c ∈ s, c < 65536

/-- What follows a value inside a serialized array or object: nothing, a comma, a
closing bracket or a closing brace. -/
def Delimited (rest : List Nat) : Prop :=
  ∀ c ∈ rest.head?, c = 0x2C ∨ c = 0x5D ∨ c = 0x7D

/-- The numeral `Number::toString` writes for the number reads back as the same number.
This holds of every integer of magnitude below `2^53`
(`parseNumber_numberToString`); for the other finite numbers it is what ECMA-262
requires of the digits `Number::toString` chooses.  NaN, the infinities and negative
zero do not read back. -/
def NumberPrints (fmt : ℚ → JSString) : JSNumber → Prop
  | .fin q => ∀ rest, Delimited rest →
      parseNumber (numberToString fmt q ++ rest) = some (.num (.fin q), rest)
  | _ => False

/-- A property list in the order in which creating its properties one after the other
leaves them, as the property list of every object is. -/
def InCreationOrder (ps : List (JSString × JSValue)) : Prop :=
  ps.foldl (fun acc p => setProp acc p.1 p.2) [] = ps

mutual
/-- A value that `JSON.stringify` writes without loss: it holds no `undefined`, NaN,
infinity or negative zero, its strings and keys are lists of code units, its objects
list their properties in creation order, and its numbers satisfy `NumberPrints`. -/
def Lossless (fmt : ℚ → JSString) : JSValue → Prop
  | .undefined => False
  | .null => True
  | .bool _ => True
  | .num n => NumberPrints fmt n
  | .str s => IsUnits s
  | .arr xs => LosslessElems fmt xs
  | .obj ps => LosslessProps fmt ps ∧ InCreationOrder ps
/-- Every element is lossless. -/
def LosslessElems (fmt : ℚ → JSString) : List JSValue → Prop
  | [] => True
  | x :: xs => Lossless fmt x ∧ LosslessElems fmt xs
/-- Every key is a list of code units and every value is lossless. -/
def LosslessProps (fmt : ℚ → JSString) : List (JSString × JSValue) → Prop
  | [] => True
  | (k, v) :: ps => IsUnits k ∧ Lossless fmt v ∧ LosslessProps fmt ps
end

/-- A stored item whose only task has an `id` too large for a finite number. -/
def infiniteIdBlob : JSString :=
  js "[\x7b\"id\":1e999,\"text\":\"a\",\"completed\":false,\"createdAt\":\"c\"\x7d]"

/-- The text `JSON.stringify` writes for an element of an array. -/
def valueText (fmt : ℚ → JSString) (v : JSValue) : JSString :=
  (stringifyValue fmt v).getD (js "null")

/-- A text whose first code unit starts a JSON value. -/
def StartsValue (s : List Nat) : Prop :=
  ∃ c tl, s = c :: tl ∧ isJsonWs c = false ∧ c ≠ 0x5D ∧ c ≠ 0x7D

/-- A task of the form `createTask` builds, with lossless field values. -/
def OwnTask (fmt : ℚ → JSString) (t : JSValue) : Prop :=
  ∃ n s b c u,
    t = .obj [(js "id", .num n), (js "text", .str s), (js "completed", .bool b),
      (js "createdAt", .str c), (js "updatedAt", u)] ∧
    NumberPrints fmt n ∧ IsUnits s ∧ IsUnits c ∧ Lossless fmt u

/-- An environment whose timestamp is a list of code units and whose clock reading
is written as a numeral that reads back, `fmt` being its number formatting. -/
def WellFormedEnv (fmt : ℚ → JSString) (env : Env) : Prop :=
  env.fmt = fmt ∧ IsUnits env.isoNow ∧ NumberPrints fmt env.msNow

/-- A call whose string arguments are lists of code units. -/
def WellFormedCall : Call → Prop
  | .add text => ∀ s, text = .str s → IsUnits s
  | .toggle _ => True
  | .delete _ => True
  | .update _ newText => ∀ s, newText = .str s → IsUnits s

/-- The order of property keys in an object: array indices first, in ascending
order, then the other keys, each key once. -/
def KeyBefore (k k' : JSString) : Prop :=
  match arrayIndex? k, arrayIndex? k' with
  | some m, some n => m < n
  | some _, none => True
  | none, some _ => False
  | none, none => k ≠ k'

/-- A property list whose keys are in property-enumeration order. -/
def Canon (ps : List (JSString × JSValue)) : Prop :=
  (ps.map Prod.fst).Pairwise KeyBefore

mutual
/-- A value as the platform builds it: no `undefined` inside, strings and keys that
are lists of code units, property lists in creation order. -/
def WellFormed : JSValue → Prop
  | .undefined => False
  | .null => True
  | .bool _ => True
  | .num _ => True
  | .str s => IsUnits s
  | .arr xs => WellFormedElems xs
  | .obj ps => WellFormedProps ps ∧ InCreationOrder ps
/-- Every element is well formed. -/
def WellFormedElems : List JSValue → Prop
  | [] => True
  | x :: xs => WellFormed x ∧ WellFormedElems xs
/-- Every key is a list of code units and every value is well formed. -/
def WellFormedProps : List (JSString × JSValue) → Prop
  | [] => True
  | (k, v) :: ps => IsUnits k ∧ WellFormed v ∧ WellFormedProps ps
end

mutual
/-- Every number inside the value satisfies `NumberPrints`: none is NaN, infinite or
negative zero, and the numeral written for it reads back as the same number. -/
def NumbersPrint (fmt : ℚ → JSString) : JSValue → Prop
  | .undefined => True
  | .null => True
  | .bool _ => True
  | .num n => NumberPrints fmt n
  | .str _ => True
  | .arr xs => NumbersPrintElems fmt xs
  | .obj ps => NumbersPrintProps fmt ps
/-- Every number inside the elements satisfies `NumberPrints`. -/
def NumbersPrintElems (fmt : ℚ → JSString) : List JSValue → Prop
  | [] => True
  | x :: xs => NumbersPrint fmt x ∧ NumbersPrintElems fmt xs
/-- Every number inside the property values satisfies `NumberPrints`. -/
def NumbersPrintProps (fmt : ℚ → JSString) : List (JSString × JSValue) → Prop
  | [] => True
  | (_, v) :: ps => NumbersPrint fmt v ∧ NumbersPrintProps fmt ps
end

/-! ## Properties of property lists -/

theorem lookupProp_replaceProp_ne {k k' : JSString} (v : JSValue) (h : k ≠ k')
    (ps : List (JSString × JSValue)) :
    lookupProp k' (replaceProp k v ps) = lookupProp k' ps := by
  induction ps with
  | nil => rfl
  | cons p ps ih =>
    obtain ⟨a, b⟩ := p
    by_cases h1 : a = k
    · subst h1
      simp [replaceProp, lookupProp, h]
    · by_cases h2 : a = k'
      · subst h2
        simp [replaceProp, lookupProp, h1]
      · simp [replaceProp, lookupProp, h1, h2, ih]

theorem lookupProp_replaceProp_self {k : JSString} (v : JSValue)
    (ps : List (JSString × JSValue)) (h : hasProp k ps = true) :
    lookupProp k (replaceProp k v ps) = some v := by
  induction ps with
  | nil => simp [hasProp, lookupProp] at h
  | cons p ps ih =>
    obtain ⟨a, b⟩ := p
    by_cases h1 : a = k
    · simp [replaceProp, lookupProp, h1]
    · simp only [hasProp, lookupProp, h1, if_false] at h
      simp [replaceProp, lookupProp, h1, ih h]

theorem lookupProp_insertIndexProp_ne (n : Nat) {k k' : JSString} (v : JSValue) (h : k ≠ k')
    (ps : List (JSString × JSValue)) :
    lookupProp k' (insertIndexProp n k v ps) = lookupProp k' ps := by
  induction ps with
  | nil => simp [insertIndexProp, lookupProp, h]
  | cons p ps ih =>
    obtain ⟨a, b⟩ := p
    simp only [insertIndexProp]
    split
    · split
      · simp [lookupProp, ih]
      · simp [lookupProp, h]
    · simp [lookupProp, h]

theorem lookupProp_insertIndexProp_self (n : Nat) {k : JSString} (v : JSValue)
    (ps : List (JSString × JSValue)) (h : hasProp k ps = false) :
    lookupProp k (insertIndexProp n k v ps) = some v := by
  induction ps with
  | nil => simp [insertIndexProp, lookupProp]
  | cons p ps ih =>
    obtain ⟨a, b⟩ := p
    have h1 : a ≠ k := by
      intro e
      simp [hasProp, lookupProp, e] at h
    have h2 : hasProp k ps = false := by
      simpa [hasProp, lookupProp, h1] using h
    simp only [insertIndexProp]
    split
    · split
      · simp [lookupProp, h1, ih h2]
      · simp [lookupProp]
    · simp [lookupProp]

theorem lookupProp_append_ne {k k' : JSString} (v : JSValue) (h : k ≠ k')
    (ps : List (JSString × JSValue)) :
    lookupProp k' (ps ++ [(k, v)]) = lookupProp k' ps := by
  induction ps with
  | nil => simp [lookupProp, h]
  | cons p ps ih =>
    obtain ⟨a, b⟩ := p
    by_cases h1 : a = k' <;> simp [lookupProp, h1, ih]

theorem lookupProp_append_self {k : JSString} (v : JSValue)
    (ps : List (JSString × JSValue)) (h : hasProp k ps = false) :
    lookupProp k (ps ++ [(k, v)]) = some v := by
  induction ps with
  | nil => simp [lookupProp]
  | cons p ps ih =>
    obtain ⟨a, b⟩ := p
    have h1 : a ≠ k := by
      intro e
      simp [hasProp, lookupProp, e] at h
    have h2 : hasProp k ps = false := by
      simpa [hasProp, lookupProp, h1] using h
    simp [lookupProp, h1, ih h2]

/-- Writing the key `k` leaves the value read under any other key unchanged. -/
theorem lookupProp_setProp_ne {k k' : JSString} (v : JSValue) (h : k ≠ k')
    (ps : List (JSString × JSValue)) :
    lookupProp k' (setProp ps k v) = lookupProp k' ps := by
  unfold setProp
  split
  · exact lookupProp_replaceProp_ne v h ps
  · split
    · exact lookupProp_insertIndexProp_ne _ v h ps
    · exact lookupProp_append_ne v h ps

/-- Reading the key `k` after writing it gives the value written. -/
theorem lookupProp_setProp_self (k : JSString) (v : JSValue)
    (ps : List (JSString × JSValue)) :
    lookupProp k (setProp ps k v) = some v := by
  unfold setProp
  split
  · next h => exact lookupProp_replaceProp_self v ps h
  · next h =>
    have h' : hasProp k ps = false := by simpa using h
    split
    · exact lookupProp_insertIndexProp_self _ v ps h'
    · exact lookupProp_append_self v ps h'

/-! ## Properties of the validators -/

theorem typeof_eq_number (v : JSValue) : typeof v = JSType.number ↔ ∃ n, v = .num n := by
  cases v <;> simp [typeof]

theorem typeof_eq_string (v : JSValue) : typeof v = JSType.string ↔ ∃ s, v = .str s := by
  cases v <;> simp [typeof]

theorem typeof_eq_boolean (v : JSValue) : typeof v = JSType.boolean ↔ ∃ b, v = .bool b := by
  cases v <;> simp [typeof]

theorem getD_undefined_eq (o : Option JSValue) (v : JSValue) (hv : v ≠ .undefined) :
    o.getD .undefined = v ↔ o = some v := by
  cases o with
  | none => simp [Ne.symm hv]
  | some w => simp

/-- The callback of `validateTasks` accepts exactly the elements with the task shape. -/
theorem taskShapeOk_iff (t : JSValue) : taskShapeOk t = true ↔ HasTaskShape t := by
  cases t with
  | obj ps =>
    simp only [taskShapeOk, propType, getProp, toBoolean, Option.map_some', Bool.true_and,
      Bool.and_eq_true, beq_iff_eq, Option.some.injEq, HasTaskShape, JSValue.obj.injEq,
      exists_eq_left', typeof_eq_number, typeof_eq_string, typeof_eq_boolean]
    have e : ∀ (o : Option JSValue) (v : JSValue), v ≠ .undefined →
        (o.getD .undefined = v ↔ o = some v) := getD_undefined_eq
    constructor
    · rintro ⟨⟨⟨⟨n, hn⟩, ⟨s, hs⟩⟩, ⟨b, hb⟩⟩, ⟨c, hc⟩⟩
      exact ⟨⟨n, (e _ _ (by simp)).1 hn⟩, ⟨s, (e _ _ (by simp)).1 hs⟩,
        ⟨b, (e _ _ (by simp)).1 hb⟩, ⟨c, (e _ _ (by simp)).1 hc⟩⟩
    · rintro ⟨⟨n, hn⟩, ⟨s, hs⟩, ⟨b, hb⟩, ⟨c, hc⟩⟩
      exact ⟨⟨⟨⟨n, (e _ _ (by simp)).2 hn⟩, ⟨s, (e _ _ (by simp)).2 hs⟩⟩,
        ⟨b, (e _ _ (by simp)).2 hb⟩⟩, ⟨c, (e _ _ (by simp)).2 hc⟩⟩
  | undefined => simp [taskShapeOk, toBoolean, HasTaskShape]
  | null => simp [taskShapeOk, toBoolean, HasTaskShape]
  | bool b => simp [taskShapeOk, propType, getProp, typeof, HasTaskShape]
  | num n => simp [taskShapeOk, propType, getProp, typeof, HasTaskShape]
  | str s => simp [taskShapeOk, propType, getProp, typeof, HasTaskShape]
  | arr xs => simp [taskShapeOk, propType, getProp, typeof, HasTaskShape]

/-- The array `validateTasks` accepts are exactly the acceptable payloads. -/
theorem validateTasks_iff (v : JSValue) : validateTasks v = true ↔ Acceptable v := by
  cases v with
  | arr xs =>
    simp only [validateTasks, List.all_eq_true, taskShapeOk_iff, Acceptable, JSValue.arr.injEq,
      exists_eq_left']
  | undefined => simp [validateTasks, Acceptable]
  | null => simp [validateTasks, Acceptable]
  | bool b => simp [validateTasks, Acceptable]
  | num n => simp [validateTasks, Acceptable]
  | str s => simp [validateTasks, Acceptable]
  | obj ps => simp [validateTasks, Acceptable]

theorem positionOf_of_denotes {index : JSValue} {i : Nat} (h : Denotes index i) :
    positionOf index = i := by
  rcases h with h | ⟨h0, h⟩
  · subst h
    simp [positionOf, JSNumber.toIndex]
  · subst h
    simp [positionOf, JSNumber.toIndex, h0]

/-- The guard `isValidIndex` accepts exactly the integers of `[0, length)`. -/
theorem isValidIndex_iff (tasks : List JSValue) (index : JSValue) :
    isValidIndex tasks index = true ↔ ∃ i, i < tasks.length ∧ Denotes index i := by
  constructor
  · intro h
    cases index with
    | num n =>
      cases n with
      | fin q =>
        simp only [isValidIndex, JSNumber.isInteger, JSNumber.geZero, JSNumber.ltLength,
          Bool.and_eq_true, beq_iff_eq, decide_eq_true_eq] at h
        obtain ⟨⟨h1, h2⟩, h3⟩ := h
        have hq : ((q.num : ℤ) : ℚ) = q := Rat.coe_int_num_of_den_eq_one h1
        have hn : 0 ≤ q.num := Rat.num_nonneg.2 h2
        obtain ⟨i, hi⟩ := Int.eq_ofNat_of_zero_le hn
        have hqi : q = (i : ℚ) := by
          rw [← hq, hi]
          simp
        refine ⟨i, ?_, Or.inl (by rw [hqi])⟩
        rw [hqi] at h3
        exact_mod_cast h3
      | negZero =>
        simp only [isValidIndex, JSNumber.isInteger, JSNumber.geZero, JSNumber.ltLength,
          Bool.and_eq_true, decide_eq_true_eq, true_and] at h
        exact ⟨0, h, Or.inr ⟨rfl, rfl⟩⟩
      | nan => simp [isValidIndex, JSNumber.isInteger] at h
      | posInf => simp [isValidIndex, JSNumber.isInteger] at h
      | negInf => simp [isValidIndex, JSNumber.isInteger] at h
    | undefined => simp [isValidIndex] at h
    | null => simp [isValidIndex] at h
    | bool b => simp [isValidIndex] at h
    | str s => simp [isValidIndex] at h
    | arr xs => simp [isValidIndex] at h
    | obj ps => simp [isValidIndex] at h
  · rintro ⟨i, hi, h | ⟨h0, h⟩⟩
    · subst h
      simp [isValidIndex, JSNumber.isInteger, JSNumber.geZero, JSNumber.ltLength, hi]
    · subst h
      subst h0
      simp [isValidIndex, JSNumber.isInteger, JSNumber.geZero, JSNumber.ltLength, hi]

/-! ## The property keys as code units -/

theorem js_id : js "id" = [105, 100] := by decide

theorem js_text : js "text" = [116, 101, 120, 116] := by decide

theorem js_completed : js "completed" = [99, 111, 109, 112, 108, 101, 116, 101, 100] := by
  decide

theorem js_createdAt : js "createdAt" = [99, 114, 101, 97, 116, 101, 100, 65, 116] := by
  decide

theorem js_updatedAt : js "updatedAt" = [117, 112, 100, 97, 116, 101, 100, 65, 116] := by
  decide

/-! ## The store operations -/

theorem save_eq (env : Env) (st : Store) :
    save env st = (⟨st.tasks, savedBlob env st.tasks st.blob⟩, saveEvent env st.tasks) := by
  unfold save savedBlob saveEvent
  split <;> rfl

theorem validateTask_str (s : JSString) :
    validateTask (.str s) = some (decide (1 ≤ (trim s).length) && decide ((trim s).length ≤ 200)) := by
  simp [validateTask, optionalTrim, typeof, lengthWithin, MIN_TASK_LENGTH, MAX_TASK_LENGTH]

/-- C1: for every store state and every string whose trimmed length is between 1 and
200, `addTask` returns true and the new sequence is the old one followed by exactly
one task carrying the trimmed text, `completed = false` and `updatedAt = null`; the
length grows by one; the write is attempted and "taskAdded" carries the new task. -/
theorem addTask_valid_text (env : Env) (st : Store) (text : JSString)
    (hmin : 1 ≤ (trim text).length) (hmax : (trim text).length ≤ 200) :
    (addTask env st (.str text)).completion = .returned true ∧
    (addTask env st (.str text)).store.tasks = st.tasks ++ [specNewTask env text] ∧
    getProp (specNewTask env text) (js "text") = some (.str (trim text)) ∧
    getProp (specNewTask env text) (js "completed") = some (.bool false) ∧
    getProp (specNewTask env text) (js "updatedAt") = some .null ∧
    (addTask env st (.str text)).store.tasks.length = st.tasks.length + 1 ∧
    (∀ j, j < st.tasks.length → (addTask env st (.str text)).store.tasks[j]? = st.tasks[j]?) ∧
    (addTask env st (.str text)).store.blob =
      savedBlob env (st.tasks ++ [specNewTask env text]) st.blob ∧
    (addTask env st (.str text)).events =
      [saveEvent env (st.tasks ++ [specNewTask env text]),
        Event.taskAdded (specNewTask env text)] := by
  have hv : validateTask (.str text) = some true := by
    rw [validateTask_str]
    simp [hmin, hmax]
  have hadd : addTask env st (.str text) =
      ⟨.returned true, ⟨st.tasks ++ [specNewTask env text],
        savedBlob env (st.tasks ++ [specNewTask env text]) st.blob⟩,
        [saveEvent env (st.tasks ++ [specNewTask env text]),
          Event.taskAdded (specNewTask env text)]⟩ := by
    simp [addTask, hv, createTask, save_eq, specNewTask]
  rw [hadd]
  refine ⟨rfl, rfl, ?_, ?_, ?_, ?_, ?_, rfl, rfl⟩
  · simp [specNewTask, getProp, lookupProp, js_id, js_text]
  · simp [specNewTask, getProp, lookupProp, js_id, js_text, js_completed]
  · simp [specNewTask, getProp, lookupProp, js_id, js_text, js_completed, js_createdAt,
      js_updatedAt]
  · simp
  · intro j hj
    simp [List.getElem?_append_left hj]

theorem addTask_valid_text_witness :
    (1 ≤ (trim (js " Buy milk ")).length ∧ (trim (js " Buy milk ")).length ≤ 200) ∧
    (addTask sampleEnv sampleStore (.str (js " Buy milk "))).completion = .returned true :=
  ⟨by decide, (addTask_valid_text sampleEnv sampleStore (js " Buy milk ")
    (by decide) (by decide)).1⟩

/-- What `addTask` does on a string that fails validation, on `undefined` and on
`null`: it returns false, dispatches one "error" event and changes nothing. -/
theorem addTask_rejected (env : Env) (st : Store) (text : JSValue)
    (h : (∃ s, text = .str s ∧ ¬ (1 ≤ (trim s).length ∧ (trim s).length ≤ 200)) ∨
      text = .undefined ∨ text = .null) :
    addTask env st text = ⟨.returned false, st, [Event.error (js "Invalid task text")]⟩ := by
  have hv : validateTask text = some false := by
    rcases h with ⟨s, rfl, hs⟩ | rfl | rfl
    · rw [validateTask_str]
      simpa using hs
    · simp [validateTask, optionalTrim, typeof]
    · simp [validateTask, optionalTrim, typeof]
  simp [addTask, hv]

/-- C2 (failing input): `addTask(5)` does not return false. `validateTask` calls
`text?.trim()` before it tests `typeof text`, and a number has no `trim` method, so a
TypeError escapes; no event is dispatched and the state is unchanged. -/
theorem addTask_number_throws (env : Env) (st : Store) :
    (addTask env st (.num (.fin 5))).completion = .threw ∧
    (addTask env st (.num (.fin 5))).completion ≠ .returned false ∧
    (addTask env st (.num (.fin 5))).events = [] ∧
    (addTask env st (.num (.fin 5))).store = st := by
  simp [addTask, validateTask, optionalTrim]

theorem toggleTask_obj (env : Env) (st : Store) (index : JSValue)
    (ps : List (JSString × JSValue)) (hv : isValidIndex st.tasks index = true)
    (hget : st.tasks[positionOf index]? = some (.obj ps)) :
    toggleTask env st index =
      ⟨.returned true,
        ⟨st.tasks.set (positionOf index)
          (.obj (setProp (setProp ps (js "completed")
            (.bool (!toBoolean ((lookupProp (js "completed") ps).getD .undefined))))
            (js "updatedAt") (.str env.isoNow))),
          savedBlob env (st.tasks.set (positionOf index)
            (.obj (setProp (setProp ps (js "completed")
              (.bool (!toBoolean ((lookupProp (js "completed") ps).getD .undefined))))
              (js "updatedAt") (.str env.isoNow)))) st.blob⟩,
        [saveEvent env (st.tasks.set (positionOf index)
            (.obj (setProp (setProp ps (js "completed")
              (.bool (!toBoolean ((lookupProp (js "completed") ps).getD .undefined))))
              (js "updatedAt") (.str env.isoNow)))),
          Event.taskToggled (.obj (setProp (setProp ps (js "completed")
              (.bool (!toBoolean ((lookupProp (js "completed") ps).getD .undefined))))
              (js "updatedAt") (.str env.isoNow))) index]⟩ := by
  simp [toggleTask, hv, hget, getProp, putProp, save_eq]

theorem completed_ne_updatedAt : js "completed" ≠ js "updatedAt" := by decide

theorem text_ne_updatedAt : js "text" ≠ js "updatedAt" := by decide

theorem text_ne_completed : js "text" ≠ js "completed" := by decide

/-- Every element of a validated array has the task shape. -/
theorem shape_of_valid {tasks : List JSValue} (hinv : validateTasks (.arr tasks) = true)
    {i : Nat} {t : JSValue} (h : tasks[i]? = some t) : HasTaskShape t := by
  obtain ⟨xs, hxs, hall⟩ := (validateTasks_iff _).1 hinv
  cases hxs
  exact hall t (List.getElem?_mem h)

/-- C3: for every store state (an array `validateTasks` accepts) and every valid
index `i`, `toggleTask(i)` returns true, negates `completed` of the task at `i`, sets
its `updatedAt` to the (non-null) timestamp of the call, and changes nothing else: the
length, every other position, and every other property of the task at `i` (`id`,
`text`, `createdAt` among them).  A second `toggleTask(i)` returns `completed` to its
original value. -/
theorem toggleTask_valid_index (env env2 : Env) (st : Store) (index : JSValue) (i : Nat)
    (hinv : validateTasks (.arr st.tasks) = true) (hi : i < st.tasks.length)
    (hd : Denotes index i) :
    ∃ old new new2 c,
      st.tasks[i]? = some old ∧ getProp old (js "completed") = some (.bool c) ∧
      (toggleTask env st index).completion = .returned true ∧
      (toggleTask env st index).store.tasks = st.tasks.set i new ∧
      getProp new (js "completed") = some (.bool (!c)) ∧
      getProp new (js "updatedAt") = some (.str env.isoNow) ∧
      getProp new (js "updatedAt") ≠ some .null ∧
      (∀ k, k ≠ js "completed" → k ≠ js "updatedAt" → getProp new k = getProp old k) ∧
      (toggleTask env st index).store.tasks.length = st.tasks.length ∧
      (∀ j, j ≠ i → (toggleTask env st index).store.tasks[j]? = st.tasks[j]?) ∧
      (toggleTask env st index).events =
        [saveEvent env (st.tasks.set i new), Event.taskToggled new index] ∧
      (toggleTask env2 (toggleTask env st index).store index).completion = .returned true ∧
      (toggleTask env2 (toggleTask env st index).store index).store.tasks =
        st.tasks.set i new2 ∧
      getProp new2 (js "completed") = some (.bool c) := by
  have hv : isValidIndex st.tasks index = true := (isValidIndex_iff _ _).2 ⟨i, hi, hd⟩
  have hp : positionOf index = i := positionOf_of_denotes hd
  obtain ⟨old, hold⟩ : ∃ old, st.tasks[i]? = some old := ⟨st.tasks[i], List.getElem?_eq_getElem hi⟩
  obtain ⟨ps, rfl, -, -, ⟨c, hc⟩, -⟩ := shape_of_valid hinv hold
  have h1 := toggleTask_obj env st index ps hv (by rw [hp]; exact hold)
  rw [hp, hc] at h1
  simp only [Option.getD_some, toBoolean] at h1
  -- the task after the first call
  obtain ⟨ps1, hps1⟩ : ∃ ps1, ps1 = setProp (setProp ps (js "completed") (.bool (!c)))
      (js "updatedAt") (.str env.isoNow) := ⟨_, rfl⟩
  rw [← hps1] at h1
  have hc1 : lookupProp (js "completed") ps1 = some (.bool (!c)) := by
    rw [hps1, lookupProp_setProp_ne _ (Ne.symm completed_ne_updatedAt),
      lookupProp_setProp_self]
  have hlen : (st.tasks.set i (.obj ps1)).length = st.tasks.length := List.length_set _ _ _
  have hv2 : isValidIndex (st.tasks.set i (.obj ps1)) index = true :=
    (isValidIndex_iff _ _).2 ⟨i, by rw [hlen]; exact hi, hd⟩
  have hget2 : (st.tasks.set i (.obj ps1))[i]? = some (.obj ps1) := by
    simp [List.getElem?_set, hi]
  have h2 := toggleTask_obj env2 (toggleTask env st index).store index ps1
    (by rw [h1]; exact hv2) (by rw [h1, hp]; exact hget2)
  rw [hp, hc1] at h2
  simp only [Option.getD_some, toBoolean, Bool.not_not] at h2
  refine ⟨.obj ps, .obj ps1,
    .obj (setProp (setProp ps1 (js "completed") (.bool c)) (js "updatedAt") (.str env2.isoNow)),
    c, hold, ?_, ?_, ?_, ?_, ?_, ?_, ?_, ?_, ?_, ?_, ?_, ?_, ?_⟩
  · simp [getProp, hc]
  · rw [h1]
  · rw [h1]
  · simp [getProp, hc1]
  · simp [getProp, hps1, lookupProp_setProp_self]
  · simp [getProp, hps1, lookupProp_setProp_self]
  · intro k hk1 hk2
    simp only [getProp, hps1]
    rw [lookupProp_setProp_ne _ (Ne.symm hk2), lookupProp_setProp_ne _ (Ne.symm hk1)]
  · rw [h1]
    exact hlen
  · intro j hj
    rw [h1]
    simp [List.getElem?_set, Ne.symm hj]
  · rw [h1]
  · rw [h2]
  · rw [h2, h1]
    simp [List.set_set]
  · simp only [getProp]
    rw [lookupProp_setProp_ne _ (Ne.symm completed_ne_updatedAt), lookupProp_setProp_self]
    rfl

theorem sampleStore_valid : validateTasks (.arr sampleStore.tasks) = true := by decide

theorem toggleTask_valid_index_witness :
    (validateTasks (.arr sampleStore.tasks) = true ∧ 1 < sampleStore.tasks.length ∧
      Denotes (.num (.fin ((1 : ℕ) : ℚ))) 1) ∧
    ∃ old new new2 c,
      sampleStore.tasks[1]? = some old ∧ getProp old (js "completed") = some (.bool c) ∧
      (toggleTask sampleEnv sampleStore (.num (.fin ((1 : ℕ) : ℚ)))).completion =
        .returned true ∧
      (toggleTask sampleEnv sampleStore (.num (.fin ((1 : ℕ) : ℚ)))).store.tasks =
        sampleStore.tasks.set 1 new ∧
      getProp new (js "completed") = some (.bool (!c)) ∧
      getProp new (js "updatedAt") = some (.str sampleEnv.isoNow) ∧
      getProp new (js "updatedAt") ≠ some .null ∧
      (∀ k, k ≠ js "completed" → k ≠ js "updatedAt" → getProp new k = getProp old k) ∧
      (toggleTask sampleEnv sampleStore (.num (.fin ((1 : ℕ) : ℚ)))).store.tasks.length =
        sampleStore.tasks.length ∧
      (∀ j, j ≠ 1 → (toggleTask sampleEnv sampleStore
        (.num (.fin ((1 : ℕ) : ℚ)))).store.tasks[j]? = sampleStore.tasks[j]?) ∧
      (toggleTask sampleEnv sampleStore (.num (.fin ((1 : ℕ) : ℚ)))).events =
        [saveEvent sampleEnv (sampleStore.tasks.set 1 new),
          Event.taskToggled new (.num (.fin ((1 : ℕ) : ℚ)))] ∧
      (toggleTask fullEnv (toggleTask sampleEnv sampleStore
        (.num (.fin ((1 : ℕ) : ℚ)))).store (.num (.fin ((1 : ℕ) : ℚ)))).completion =
        .returned true ∧
      (toggleTask fullEnv (toggleTask sampleEnv sampleStore
        (.num (.fin ((1 : ℕ) : ℚ)))).store (.num (.fin ((1 : ℕ) : ℚ)))).store.tasks =
        sampleStore.tasks.set 1 new2 ∧
      getProp new2 (js "completed") = some (.bool c) :=
  ⟨⟨by decide, by decide, Or.inl rfl⟩,
    toggleTask_valid_index sampleEnv fullEnv sampleStore (.num (.fin ((1 : ℕ) : ℚ))) 1
      (by decide) (by decide) (Or.inl rfl)⟩

/-- C4: for every store state and every valid index `i`, `deleteTask(i)` returns
true and removes exactly the element at position `i`: the length decreases by one,
the elements before `i` keep their position, each element after `i` moves down by
one, and "taskDeleted" carries the removed task together with the index. -/
theorem deleteTask_valid_index (env : Env) (st : Store) (index : JSValue) (i : Nat)
    (hi : i < st.tasks.length) (hd : Denotes index i) :
    ∃ removed,
      st.tasks[i]? = some removed ∧
      (deleteTask env st index).completion = .returned true ∧
      (deleteTask env st index).store.tasks = st.tasks.eraseIdx i ∧
      (deleteTask env st index).store.tasks.length + 1 = st.tasks.length ∧
      (∀ j, j < i → (deleteTask env st index).store.tasks[j]? = st.tasks[j]?) ∧
      (∀ j, i < j → (deleteTask env st index).store.tasks[j - 1]? = st.tasks[j]?) ∧
      (deleteTask env st index).events =
        [saveEvent env (st.tasks.eraseIdx i), Event.taskDeleted removed index] := by
  have hv : isValidIndex st.tasks index = true := (isValidIndex_iff _ _).2 ⟨i, hi, hd⟩
  have hp : positionOf index = i := positionOf_of_denotes hd
  have hold : st.tasks[i]? = some st.tasks[i] := List.getElem?_eq_getElem hi
  have h1 : deleteTask env st index =
      ⟨.returned true, ⟨st.tasks.eraseIdx i, savedBlob env (st.tasks.eraseIdx i) st.blob⟩,
        [saveEvent env (st.tasks.eraseIdx i), Event.taskDeleted st.tasks[i] index]⟩ := by
    simp [deleteTask, hv, hp, hold, save_eq]
  rw [h1]
  refine ⟨st.tasks[i], hold, rfl, rfl, ?_, ?_, ?_, rfl⟩
  · simp only [List.length_eraseIdx_of_lt hi]
    omega
  · intro j hj
    exact List.getElem?_eraseIdx_of_lt _ _ _ hj
  · intro j hj
    have e := List.getElem?_eraseIdx_of_ge st.tasks i (j - 1) (by omega)
    rw [show j - 1 + 1 = j by omega] at e
    exact e

theorem deleteTask_valid_index_witness :
    (0 < sampleStore.tasks.length ∧ Denotes (.num (.fin ((0 : ℕ) : ℚ))) 0) ∧
    ∃ removed,
      sampleStore.tasks[0]? = some removed ∧
      (deleteTask sampleEnv sampleStore (.num (.fin ((0 : ℕ) : ℚ)))).completion =
        .returned true ∧
      (deleteTask sampleEnv sampleStore (.num (.fin ((0 : ℕ) : ℚ)))).store.tasks =
        sampleStore.tasks.eraseIdx 0 ∧
      (deleteTask sampleEnv sampleStore (.num (.fin ((0 : ℕ) : ℚ)))).store.tasks.length + 1 =
        sampleStore.tasks.length ∧
      (∀ j, j < 0 → (deleteTask sampleEnv sampleStore
        (.num (.fin ((0 : ℕ) : ℚ)))).store.tasks[j]? = sampleStore.tasks[j]?) ∧
      (∀ j, 0 < j → (deleteTask sampleEnv sampleStore
        (.num (.fin ((0 : ℕ) : ℚ)))).store.tasks[j - 1]? = sampleStore.tasks[j]?) ∧
      (deleteTask sampleEnv sampleStore (.num (.fin ((0 : ℕ) : ℚ)))).events =
        [saveEvent sampleEnv (sampleStore.tasks.eraseIdx 0),
          Event.taskDeleted removed (.num (.fin ((0 : ℕ) : ℚ)))] :=
  ⟨⟨by decide, Or.inl rfl⟩,
    deleteTask_valid_index sampleEnv sampleStore (.num (.fin ((0 : ℕ) : ℚ))) 0
      (by decide) (Or.inl rfl)⟩

theorem updateTask_obj (env : Env) (st : Store) (index : JSValue) (s : JSString)
    (ps : List (JSString × JSValue)) (hv : isValidIndex st.tasks index = true)
    (hmin : 1 ≤ (trim s).length) (hmax : (trim s).length ≤ 200)
    (hget : st.tasks[positionOf index]? = some (.obj ps)) :
    updateTask env st index (.str s) =
      if strictEqStr (trim s) ((lookupProp (js "text") ps).getD .undefined) then
        ⟨.returned false, st, []⟩
      else
        ⟨.returned true,
          ⟨st.tasks.set (positionOf index)
            (.obj (setProp (setProp ps (js "text") (.str (trim s)))
              (js "updatedAt") (.str env.isoNow))),
            savedBlob env (st.tasks.set (positionOf index)
              (.obj (setProp (setProp ps (js "text") (.str (trim s)))
                (js "updatedAt") (.str env.isoNow)))) st.blob⟩,
          [saveEvent env (st.tasks.set (positionOf index)
              (.obj (setProp (setProp ps (js "text") (.str (trim s)))
                (js "updatedAt") (.str env.isoNow)))),
            Event.taskUpdated (.obj (setProp (setProp ps (js "text") (.str (trim s)))
                (js "updatedAt") (.str env.isoNow))) index]⟩ := by
  have hvt : validateTask (.str s) = some true := by
    rw [validateTask_str]
    simp [hmin, hmax]
  simp only [updateTask, hv, hvt, hget, getProp, putProp, save_eq, Bool.not_true,
    Bool.false_eq_true, if_false]

/-- C5: for every store state (an array `validateTasks` accepts), every valid index
`i` and every text passing validation: if the trimmed text equals the current text of
the task at `i`, `updateTask` returns false, leaves the whole state unchanged and
dispatches no event; otherwise it returns true, sets `text` to the trimmed text and
`updatedAt` to the (non-null) timestamp of the call, and leaves every other property
of that task (`completed`, `id`, `createdAt` among them), every other position and the
length unchanged. -/
theorem updateTask_valid (env : Env) (st : Store) (index : JSValue) (i : Nat)
    (newText : JSString) (hinv : validateTasks (.arr st.tasks) = true)
    (hi : i < st.tasks.length) (hd : Denotes index i)
    (hmin : 1 ≤ (trim newText).length) (hmax : (trim newText).length ≤ 200) :
    ∃ old cur,
      st.tasks[i]? = some old ∧ getProp old (js "text") = some (.str cur) ∧
      (trim newText = cur →
        updateTask env st index (.str newText) = ⟨.returned false, st, []⟩) ∧
      (trim newText ≠ cur →
        ∃ new,
          (updateTask env st index (.str newText)).completion = .returned true ∧
          (updateTask env st index (.str newText)).store.tasks = st.tasks.set i new ∧
          getProp new (js "text") = some (.str (trim newText)) ∧
          getProp new (js "updatedAt") = some (.str env.isoNow) ∧
          getProp new (js "updatedAt") ≠ some .null ∧
          (∀ k, k ≠ js "text" → k ≠ js "updatedAt" → getProp new k = getProp old k) ∧
          (updateTask env st index (.str newText)).store.tasks.length = st.tasks.length ∧
          (∀ j, j ≠ i →
            (updateTask env st index (.str newText)).store.tasks[j]? = st.tasks[j]?) ∧
          (updateTask env st index (.str newText)).events =
            [saveEvent env (st.tasks.set i new), Event.taskUpdated new index]) := by
  have hv : isValidIndex st.tasks index = true := (isValidIndex_iff _ _).2 ⟨i, hi, hd⟩
  have hp : positionOf index = i := positionOf_of_denotes hd
  have hold : st.tasks[i]? = some st.tasks[i] := List.getElem?_eq_getElem hi
  obtain ⟨ps, hps, -, ⟨cur, hcur⟩, -, -⟩ := shape_of_valid hinv hold
  rw [hps] at hold
  have h1 := updateTask_obj env st index newText ps hv hmin hmax (by rw [hp]; exact hold)
  rw [hp, hcur] at h1
  simp only [Option.getD_some, strictEqStr, decide_eq_true_eq] at h1
  refine ⟨.obj ps, cur, hold, by simp [getProp, hcur], ?_, ?_⟩
  · intro he
    rw [h1, if_pos he]
  · intro hne
    rw [h1, if_neg hne]
    refine ⟨_, rfl, rfl, ?_, ?_, ?_, ?_, ?_, ?_, rfl⟩
    · simp only [getProp]
      rw [lookupProp_setProp_ne _ (Ne.symm text_ne_updatedAt), lookupProp_setProp_self]
      rfl
    · simp [getProp, lookupProp_setProp_self]
    · simp [getProp, lookupProp_setProp_self]
    · intro k hk1 hk2
      simp only [getProp]
      rw [lookupProp_setProp_ne _ (Ne.symm hk2), lookupProp_setProp_ne _ (Ne.symm hk1)]
    · simp
    · intro j hj
      simp [List.getElem?_set, Ne.symm hj]

theorem updateTask_valid_witness :
    (validateTasks (.arr sampleStore.tasks) = true ∧ 0 < sampleStore.tasks.length ∧
      Denotes (.num (.fin ((0 : ℕ) : ℚ))) 0 ∧ 1 ≤ (trim (js " Buy oat milk ")).length ∧
      (trim (js " Buy oat milk ")).length ≤ 200) ∧
    ∃ old cur,
      sampleStore.tasks[0]? = some old ∧ getProp old (js "text") = some (.str cur) ∧
      (trim (js " Buy oat milk ") = cur →
        updateTask sampleEnv sampleStore (.num (.fin ((0 : ℕ) : ℚ)))
          (.str (js " Buy oat milk ")) = ⟨.returned false, sampleStore, []⟩) ∧
      (trim (js " Buy oat milk ") ≠ cur →
        ∃ new,
          (updateTask sampleEnv sampleStore (.num (.fin ((0 : ℕ) : ℚ)))
            (.str (js " Buy oat milk "))).completion = .returned true ∧
          (updateTask sampleEnv sampleStore (.num (.fin ((0 : ℕ) : ℚ)))
            (.str (js " Buy oat milk "))).store.tasks = sampleStore.tasks.set 0 new ∧
          getProp new (js "text") = some (.str (trim (js " Buy oat milk "))) ∧
          getProp new (js "updatedAt") = some (.str sampleEnv.isoNow) ∧
          getProp new (js "updatedAt") ≠ some .null ∧
          (∀ k, k ≠ js "text" → k ≠ js "updatedAt" → getProp new k = getProp old k) ∧
          (updateTask sampleEnv sampleStore (.num (.fin ((0 : ℕ) : ℚ)))
            (.str (js " Buy oat milk "))).store.tasks.length = sampleStore.tasks.length ∧
          (∀ j, j ≠ 0 →
            (updateTask sampleEnv sampleStore (.num (.fin ((0 : ℕ) : ℚ)))
              (.str (js " Buy oat milk "))).store.tasks[j]? = sampleStore.tasks[j]?) ∧
          (updateTask sampleEnv sampleStore (.num (.fin ((0 : ℕ) : ℚ)))
            (.str (js " Buy oat milk "))).events =
            [saveEvent sampleEnv (sampleStore.tasks.set 0 new),
              Event.taskUpdated new (.num (.fin ((0 : ℕ) : ℚ)))]) :=
  ⟨⟨by decide, by decide, Or.inl rfl, by decide, by decide⟩,
    updateTask_valid sampleEnv sampleStore (.num (.fin ((0 : ℕ) : ℚ))) 0 (js " Buy oat milk ")
      (by decide) (by decide) (Or.inl rfl) (by decide) (by decide)⟩

/-- C6: for every store state and every index that is not an integer of
`[0, length)`, each of `toggleTask(index)`, `deleteTask(index)` and
`updateTask(index, text)`, with any `text`, returns false, dispatches one "error"
event and nothing else, and leaves the state (the task sequence and the stored item)
unchanged. -/
theorem invalid_index_rejected (env : Env) (st : Store) (index text : JSValue)
    (h : ¬ ∃ i, i < st.tasks.length ∧ Denotes index i) :
    toggleTask env st index =
      ⟨.returned false, st, [Event.error (js "Invalid task index")]⟩ ∧
    deleteTask env st index =
      ⟨.returned false, st, [Event.error (js "Invalid task index")]⟩ ∧
    updateTask env st index text =
      ⟨.returned false, st, [Event.error (js "Invalid task update")]⟩ := by
  have hv : isValidIndex st.tasks index = false := by
    cases hb : isValidIndex st.tasks index with
    | false => rfl
    | true => exact absurd ((isValidIndex_iff _ _).1 hb) h
  simp [toggleTask, deleteTask, updateTask, hv]

theorem invalid_index_rejected_witness :
    (¬ ∃ i, i < sampleStore.tasks.length ∧ Denotes (.num (.fin 2)) i) ∧
    (toggleTask sampleEnv sampleStore (.num (.fin 2)) =
      ⟨.returned false, sampleStore, [Event.error (js "Invalid task index")]⟩ ∧
    deleteTask sampleEnv sampleStore (.num (.fin 2)) =
      ⟨.returned false, sampleStore, [Event.error (js "Invalid task index")]⟩ ∧
    updateTask sampleEnv sampleStore (.num (.fin 2)) (.num (.fin 5)) =
      ⟨.returned false, sampleStore, [Event.error (js "Invalid task update")]⟩) :=
  ⟨fun h => absurd ((isValidIndex_iff _ _).2 h) (by decide),
    invalid_index_rejected sampleEnv sampleStore (.num (.fin 2)) (.num (.fin 5))
      (fun h => absurd ((isValidIndex_iff _ _).2 h) (by decide))⟩

theorem createTask_okEnv (env : Env) (text : JSValue) :
    createTask (okEnv env) text = createTask env text := by
  cases text <;> rfl

theorem okEnv_isoNow (env : Env) : (okEnv env).isoNow = env.isoNow := rfl

theorem saveEvent_okEnv (env : Env) (tasks : List JSValue) :
    saveEvent (okEnv env) tasks = Event.saved := by
  simp [saveEvent, okEnv]

theorem saveEvent_of_fail (env : Env) (tasks : List JSValue)
    (h : env.setItemOk (JSONstringify env.fmt tasks) = false) :
    saveEvent env tasks = Event.error (js "Error saving tasks") := by
  simp [saveEvent, h]

theorem savedBlob_of_fail (env : Env) (tasks : List JSValue) (blob : Option JSString)
    (h : env.setItemOk (JSONstringify env.fmt tasks) = false) :
    savedBlob env tasks blob = blob := by
  simp [savedBlob, h]

/-- C9: when a call of `addTask`, `toggleTask`, `deleteTask` or `updateTask` takes
effect (with a storage that accepts the write it returns true) and the write of the
resulting array is rejected, the call still returns true, the sequence in memory is
exactly the one produced when the write succeeds, the stored item is left as it was,
and the "error" event stands where "saved" stands otherwise, before the same mutation
event. -/
theorem write_failure_keeps_mutation (env : Env) (st : Store) (call : Call)
    (hret : (perform (okEnv env) st call).completion = .returned true)
    (hfail : env.setItemOk
      (JSONstringify env.fmt (perform (okEnv env) st call).store.tasks) = false) :
    (perform env st call).completion = .returned true ∧
    (perform env st call).store.tasks = (perform (okEnv env) st call).store.tasks ∧
    (perform env st call).store.blob = st.blob ∧
    ∃ ev,
      (perform (okEnv env) st call).events = [Event.saved, ev] ∧
      (perform env st call).events = [Event.error (js "Error saving tasks"), ev] := by
  cases call with
  | add text =>
    simp only [perform, addTask, createTask_okEnv, save_eq] at hret hfail ⊢
    repeat' split at hret
    all_goals first
      | (simp at hret; done)
      | simp_all [saveEvent_okEnv, savedBlob, saveEvent, okEnv]
  | toggle index =>
    simp only [perform, toggleTask, okEnv_isoNow, save_eq] at hret hfail ⊢
    repeat' split at hret
    all_goals first
      | (simp at hret; done)
      | simp_all [saveEvent_okEnv, savedBlob, saveEvent, okEnv]
  | delete index =>
    simp only [perform, deleteTask, save_eq] at hret hfail ⊢
    repeat' split at hret
    all_goals first
      | (simp at hret; done)
      | simp_all [saveEvent_okEnv, savedBlob, saveEvent, okEnv]
  | update index newText =>
    simp only [perform, updateTask, okEnv_isoNow, save_eq] at hret hfail ⊢
    repeat' split at hret
    all_goals first
      | (simp at hret; done)
      | simp_all [saveEvent_okEnv, savedBlob, saveEvent, okEnv]

theorem write_failure_keeps_mutation_witness :
    ((perform (okEnv fullEnv) sampleStore (.toggle (.num (.fin 0)))).completion =
        .returned true ∧
      fullEnv.setItemOk (JSONstringify fullEnv.fmt
        (perform (okEnv fullEnv) sampleStore (.toggle (.num (.fin 0)))).store.tasks) = false) ∧
    ((perform fullEnv sampleStore (.toggle (.num (.fin 0)))).completion = .returned true ∧
    (perform fullEnv sampleStore (.toggle (.num (.fin 0)))).store.tasks =
      (perform (okEnv fullEnv) sampleStore (.toggle (.num (.fin 0)))).store.tasks ∧
    (perform fullEnv sampleStore (.toggle (.num (.fin 0)))).store.blob = sampleStore.blob ∧
    ∃ ev,
      (perform (okEnv fullEnv) sampleStore (.toggle (.num (.fin 0)))).events =
        [Event.saved, ev] ∧
      (perform fullEnv sampleStore (.toggle (.num (.fin 0)))).events =
        [Event.error (js "Error saving tasks"), ev]) :=
  ⟨⟨by decide, rfl⟩,
    write_failure_keeps_mutation fullEnv sampleStore (.toggle (.num (.fin 0)))
      (by decide) rfl⟩

/-! ## Loading -/

theorem loadTasks_eq_nil_of_not_valid (blob : Option JSString)
    (h : (JSONparse (blob.getD (js "null"))).map validateTasks ≠ some true) :
    loadTasks blob = [] := by
  unfold loadTasks
  cases hp : JSONparse (blob.getD (js "null")) with
  | none => rfl
  | some v =>
    rw [hp] at h
    have hv : validateTasks v = false := by
      cases hb : validateTasks v with
      | false => rfl
      | true => simp [hb] at h
    simp [hv]

/-- C7: `loadTasks` is total (a SyntaxError of `JSON.parse` is caught) and, for every
stored item (absent, or any string), it returns the parsed payload when the item
parses to an acceptable payload (an array whose every element has a numeric `id`, a
string `text`, a boolean `completed` and a string `createdAt`; `updatedAt` is not
looked at) and the empty sequence in every other case, in particular for an absent
item and for the items `not json` and `[{"id":1}]`. -/
theorem loadTasks_spec (blob : Option JSString) :
    (∀ payload, JSONparse (blob.getD (js "null")) = some payload → Acceptable payload →
      JSValue.arr (loadTasks blob) = payload) ∧
    ((∀ payload, JSONparse (blob.getD (js "null")) = some payload → ¬ Acceptable payload) →
      loadTasks blob = []) ∧
    loadTasks none = [] ∧
    loadTasks (some (js "not json")) = [] ∧
    loadTasks (some (js "[\x7b\"id\":1\x7d]")) = [] := by
  refine ⟨?_, ?_, ?_, ?_, ?_⟩
  · intro payload hp ha
    have hv : validateTasks payload = true := (validateTasks_iff _).2 ha
    obtain ⟨xs, rfl, -⟩ := ha
    simp [loadTasks, hp, hv, arrayElems]
  · intro h
    apply loadTasks_eq_nil_of_not_valid
    cases hp : JSONparse (blob.getD (js "null")) with
    | none => simp
    | some v =>
      have hv : validateTasks v ≠ true := fun hv => h v hp ((validateTasks_iff _).1 hv)
      simpa using hv
  · exact loadTasks_eq_nil_of_not_valid _ (by decide!)
  · exact loadTasks_eq_nil_of_not_valid _ (by decide!)
  · exact loadTasks_eq_nil_of_not_valid _ (by decide!)

/-! ## The text invariant -/

theorem dropWhile_eq_self_of_prefix (p : Nat → Bool) (s t : List Nat)
    (h : t <+: s.dropWhile p) : t.dropWhile p = t := by
  cases t with
  | nil => rfl
  | cons x t =>
    obtain ⟨r, hr⟩ := h
    have hh := List.head?_dropWhile_not p s
    rw [← hr] at hh
    simp only [List.cons_append, List.head?_cons] at hh
    simp [List.dropWhile, hh]

theorem trim_eq (s : JSString) : trim s = (s.dropWhile isTrimUnit).rdropWhile isTrimUnit := rfl

/-- Trimming is idempotent. -/
theorem trim_trim (s : JSString) : trim (trim s) = trim s := by
  rw [trim_eq (trim s), dropWhile_eq_self_of_prefix isTrimUnit s (trim s)
    (by rw [trim_eq]; exact List.rdropWhile_prefix _ _), trim_eq, List.rdropWhile_idempotent]

/-- A non-empty string has at least one code point and no more code points than
code units. -/
theorem codePoints_bounds (s : JSString) :
    codePoints s ≤ s.length ∧ (1 ≤ s.length → 1 ≤ codePoints s) := by
  induction s using codePoints.induct with
  | case1 => simp [codePoints]
  | case2 c => simp [codePoints]
  | case3 c d rest h ih =>
    simp only [codePoints, h, if_true, List.length_cons]
    omega
  | case4 c d rest h ih =>
    simp only [codePoints, h, List.length_cons] at ih ⊢
    simp
    omega

theorem putProp_textOk {t t' : JSValue} {k : JSString} {x : JSValue}
    (h : putProp t k x = some t') (hk : k ≠ js "text") (ht : TextOk t) : TextOk t' := by
  cases t with
  | obj ps =>
    simp only [putProp, Option.some.injEq] at h
    subst h
    obtain ⟨s, hs, h1, h2, h3⟩ := ht
    refine ⟨s, ?_, h1, h2, h3⟩
    simp only [getProp] at hs ⊢
    rw [lookupProp_setProp_ne _ hk]
    exact hs
  | undefined => simp [putProp] at h
  | null => simp [putProp] at h
  | bool b => simp [putProp] at h
  | num n => simp [putProp] at h
  | str s => simp [putProp] at h
  | arr xs => simp [putProp] at h

theorem putProp_text_textOk {t t' : JSValue} {s : JSString}
    (h : putProp t (js "text") (.str (trim s)) = some t')
    (hv : validateTask (.str s) = some true) : TextOk t' := by
  rw [validateTask_str] at hv
  simp only [Option.some.injEq, Bool.and_eq_true, decide_eq_true_eq] at hv
  cases t with
  | obj ps =>
    simp only [putProp, Option.some.injEq] at h
    subst h
    refine ⟨trim s, ?_, trim_trim s, hv.1, hv.2⟩
    simp [getProp, lookupProp_setProp_self]
  | undefined => simp [putProp] at h
  | null => simp [putProp] at h
  | bool b => simp [putProp] at h
  | num n => simp [putProp] at h
  | str s => simp [putProp] at h
  | arr xs => simp [putProp] at h

theorem createTask_textOk {env : Env} {text task : JSValue}
    (h : createTask env text = some task) (hv : validateTask text = some true) :
    TextOk task := by
  cases text with
  | str s =>
    rw [validateTask_str] at hv
    simp only [Option.some.injEq, Bool.and_eq_true, decide_eq_true_eq] at hv
    simp only [createTask, Option.some.injEq] at h
    subst h
    refine ⟨trim s, ?_, trim_trim s, hv.1, hv.2⟩
    simp [getProp, lookupProp, js_id, js_text]
  | undefined => simp [createTask] at h
  | null => simp [createTask] at h
  | bool b => simp [createTask] at h
  | num n => simp [createTask] at h
  | arr xs => simp [createTask] at h
  | obj ps => simp [createTask] at h

theorem updatedAt_ne_text : js "updatedAt" ≠ js "text" := by decide

theorem completed_ne_text : js "completed" ≠ js "text" := by decide

/-- A property of tasks that the new task has is kept by `addTask`. -/
theorem addTask_preserves (P : JSValue → Prop) (env : Env) (st : Store) (text : JSValue)
    (hcreate : ∀ task, validateTask text = some true → createTask env text = some task → P task)
    (h0 : ∀ t ∈ st.tasks, P t) : ∀ t ∈ (addTask env st text).store.tasks, P t := by
  unfold addTask
  simp only [save_eq]
  split
  · exact h0
  · exact h0
  · rename_i hv
    split
    · exact h0
    · rename_i task hc
      intro t ht
      rcases List.mem_append.1 ht with h | h
      · exact h0 t h
      · rw [List.mem_singleton.1 h]
        exact hcreate task hv hc

/-- A property of tasks that the two property writes keep is kept by `toggleTask`. -/
theorem toggleTask_preserves (P : JSValue → Prop) (env : Env) (st : Store) (index : JSValue)
    (hcompleted : ∀ t t' b, P t → putProp t (js "completed") (.bool b) = some t' → P t')
    (hupdated : ∀ t t', P t → putProp t (js "updatedAt") (.str env.isoNow) = some t' → P t')
    (h0 : ∀ t ∈ st.tasks, P t) : ∀ t ∈ (toggleTask env st index).store.tasks, P t := by
  unfold toggleTask
  simp only [save_eq]
  split
  · exact h0
  · split
    · exact h0
    · rename_i task hget
      split
      · exact h0
      · split
        · exact h0
        · rename_i task1 h1
          split
          · exact h0
          · rename_i task2 h2
            intro t ht
            rcases List.mem_or_eq_of_mem_set ht with h | rfl
            · exact h0 t h
            · exact hupdated _ _ (hcompleted _ _ _ (h0 task (List.getElem?_mem hget)) h1) h2

/-- Every property of tasks is kept by `deleteTask`. -/
theorem deleteTask_preserves (P : JSValue → Prop) (env : Env) (st : Store) (index : JSValue)
    (h0 : ∀ t ∈ st.tasks, P t) : ∀ t ∈ (deleteTask env st index).store.tasks, P t := by
  unfold deleteTask
  simp only [save_eq]
  split
  · exact h0
  · intro t ht
    exact h0 t (List.mem_of_mem_eraseIdx ht)

/-- A property of tasks that the two property writes keep is kept by `updateTask`. -/
theorem updateTask_preserves (P : JSValue → Prop) (env : Env) (st : Store)
    (index newText : JSValue)
    (htext : ∀ s t t', newText = .str s → validateTask (.str s) = some true → P t →
      putProp t (js "text") (.str (trim s)) = some t' → P t')
    (hupdated : ∀ t t', P t → putProp t (js "updatedAt") (.str env.isoNow) = some t' → P t')
    (h0 : ∀ t ∈ st.tasks, P t) :
    ∀ t ∈ (updateTask env st index newText).store.tasks, P t := by
  unfold updateTask
  simp only [save_eq]
  split
  · exact h0
  · split
    · exact h0
    · exact h0
    · rename_i hv
      split
      · rename_i task s hget
        split
        · exact h0
        · split
          · exact h0
          · split
            · exact h0
            · rename_i task1 h1
              split
              · exact h0
              · rename_i task2 h2
                intro t ht
                rcases List.mem_or_eq_of_mem_set ht with h | rfl
                · exact h0 t h
                · exact hupdated _ _
                    (htext s _ _ rfl hv (h0 task (List.getElem?_mem hget)) h1) h2
      · exact h0

/-- Each call preserves the text invariant. -/
theorem perform_textOk (env : Env) (st : Store) (call : Call)
    (h0 : ∀ t ∈ st.tasks, TextOk t) : ∀ t ∈ (perform env st call).store.tasks, TextOk t := by
  cases call with
  | add text =>
    exact addTask_preserves TextOk env st text (fun _ hv hc => createTask_textOk hc hv) h0
  | toggle index =>
    exact toggleTask_preserves TextOk env st index
      (fun _ _ _ ht h => putProp_textOk h completed_ne_text ht)
      (fun _ _ ht h => putProp_textOk h updatedAt_ne_text ht) h0
  | delete index => exact deleteTask_preserves TextOk env st index h0
  | update index newText =>
    exact updateTask_preserves TextOk env st index newText
      (fun _ _ _ _ hv _ h => putProp_text_textOk h hv)
      (fun _ _ ht h => putProp_textOk h updatedAt_ne_text ht) h0

theorem textLength_of_textOk {t : JSValue} (h : TextOk t) :
    ∃ n, textLength? t = some n ∧ 1 ≤ n := by
  obtain ⟨s, hs, -, h1, -⟩ := h
  exact ⟨s.length, by simp [textLength?, hs], h1⟩

/-- C10 (as stated, refuted): a state constructed by `loadTasks` from a stored item
need not satisfy the text invariant.  The item `emptyTextBlob` passes `validateTasks`,
which looks at the type of `text` only, and the task it yields has the empty text. -/
theorem loaded_text_not_validated :
    ¬ ∀ (blob : Option JSString) (calls : List (Env × Call)),
      ∀ t ∈ (run (construct blob) calls).tasks, TextOk t := by
  intro h
  have hl : (loadTasks (some emptyTextBlob)).map textLength? = [some 0] := by decide!
  cases hts : loadTasks (some emptyTextBlob) with
  | nil => simp [hts] at hl
  | cons t ts =>
    rw [hts] at hl
    simp only [List.map_cons, List.cons.injEq] at hl
    have ht : TextOk t := h (some emptyTextBlob) [] t (by simp [run, construct, hts])
    obtain ⟨n, hn, h1⟩ := textLength_of_textOk ht
    rw [hl.1] at hn
    simp only [Option.some.injEq] at hn
    omega

/-- C10 (amended): the operations preserve the text invariant.  From a state in which
the text of every task is trimmed and has between 1 and 200 code units (the empty
store among them), every sequence of `addTask`, `toggleTask`, `deleteTask` and
`updateTask` calls leads to a state in which the text of every task is a string equal
to its own trim, with between 1 and 200 code units, hence between 1 and 200 code
points. -/
theorem run_preserves_text_invariant (st : Store) (calls : List (Env × Call))
    (h0 : ∀ t ∈ st.tasks, TextOk t) :
    ∀ t ∈ (run st calls).tasks,
      ∃ s, getProp t (js "text") = some (.str s) ∧ trim s = s ∧
        1 ≤ s.length ∧ s.length ≤ 200 ∧ 1 ≤ codePoints s ∧ codePoints s ≤ 200 := by
  induction calls generalizing st with
  | nil =>
    intro t ht
    obtain ⟨s, hs, h1, h2, h3⟩ := h0 t ht
    have hb := codePoints_bounds s
    simp only [MIN_TASK_LENGTH, MAX_TASK_LENGTH] at h2 h3
    exact ⟨s, hs, h1, h2, h3, hb.2 h2, le_trans hb.1 h3⟩
  | cons c calls ih =>
    obtain ⟨env, call⟩ := c
    exact ih (perform env st call).store (perform_textOk env st call h0)

theorem run_preserves_text_invariant_witness :
    (∀ t ∈ emptyStore.tasks, TextOk t) ∧
    ∀ t ∈ (run emptyStore [(sampleEnv, .add (.str (js " Buy milk "))),
        (sampleEnv, .toggle (.num (.fin 0))),
        (fullEnv, .update (.num (.fin 0)) (.str (js "Buy oat milk")))]).tasks,
      ∃ s, getProp t (js "text") = some (.str s) ∧ trim s = s ∧
        1 ≤ s.length ∧ s.length ≤ 200 ∧ 1 ≤ codePoints s ∧ codePoints s ≤ 200 :=
  ⟨by simp [emptyStore],
    run_preserves_text_invariant emptyStore _ (by simp [emptyStore])⟩

/-! ## Reading back a quoted string -/

theorem hexValue_hexDigit : ∀ n, n < 16 → hexValue (hexDigit n) = some n := by decide

theorem hex4_unicodeEscape (c : Nat) (hc : c < 65536) :
    hex4 (hexDigit (c / 4096 % 16)) (hexDigit (c / 256 % 16)) (hexDigit (c / 16 % 16))
      (hexDigit (c % 16)) = some c := by
  have h1 := hexValue_hexDigit (c / 4096 % 16) (Nat.mod_lt _ (by decide))
  have h2 := hexValue_hexDigit (c / 256 % 16) (Nat.mod_lt _ (by decide))
  have h3 := hexValue_hexDigit (c / 16 % 16) (Nat.mod_lt _ (by decide))
  have h4 := hexValue_hexDigit (c % 16) (Nat.mod_lt _ (by decide))
  simp only [hex4, h1, h2, h3, h4, Option.some.injEq]
  omega

theorem parseCharsAux_unicodeEscape (c : Nat) (hc : c < 65536) (f : Nat) (tail : List Nat) :
    parseCharsAux (f + 1) (unicodeEscape c ++ tail) = consUnit c (parseCharsAux f tail) := by
  simp [unicodeEscape, parseCharsAux, hex4_unicodeEscape c hc]

/-- One step of the string reader undoes `quoteUnit`. -/
theorem parseCharsAux_quoteUnit (c : Nat) (hc : c < 65536) (f : Nat) (tail : List Nat) :
    parseCharsAux (f + 1) (quoteUnit c ++ tail) = consUnit c (parseCharsAux f tail) := by
  unfold quoteUnit
  split
  · next h => subst h; simp [parseCharsAux, simpleEscape]
  split
  · next h => subst h; simp [parseCharsAux, simpleEscape]
  split
  · next h => subst h; simp [parseCharsAux, simpleEscape]
  split
  · next h => subst h; simp [parseCharsAux, simpleEscape]
  split
  · next h => subst h; simp [parseCharsAux, simpleEscape]
  split
  · next h => subst h; simp [parseCharsAux, simpleEscape]
  split
  · next h => subst h; simp [parseCharsAux, simpleEscape]
  split
  · exact parseCharsAux_unicodeEscape c hc f tail
  · next h1 h2 h3 h4 h5 h6 h7 h8 =>
    simp only [Bool.or_eq_true, decide_eq_true_eq, not_or, not_lt] at h8
    simp [parseCharsAux, h6, h7, h8.1.1]

theorem quoteUnit_length_pos (c : Nat) : 0 < (quoteUnit c).length := by
  unfold quoteUnit
  repeat' split
  all_goals simp [unicodeEscape]

theorem parseCharsAux_quoteBody (s : JSString) :
    IsUnits s → ∀ f rest, (quoteBody s).length < f →
      parseCharsAux f (quoteBody s ++ 0x22 :: rest) = some (s, rest) := by
  induction s using quoteBody.induct with
  | case1 =>
    intro _ f rest hf
    cases f with
    | zero => omega
    | succ f => simp [quoteBody, parseCharsAux]
  | case2 c =>
    intro hs f rest hf
    have hc : c < 65536 := hs c (by simp)
    have hpos := quoteUnit_length_pos c
    simp only [quoteBody] at hf ⊢
    obtain ⟨g, rfl⟩ : ∃ g, f = g + 2 := ⟨f - 2, by omega⟩
    rw [parseCharsAux_quoteUnit c hc]
    simp [parseCharsAux, consUnit]
  | case3 c d rest' hpair ih =>
    intro hs f rest hf
    simp only [quoteBody, hpair, if_true, List.length_cons] at hf ⊢
    obtain ⟨g, rfl⟩ : ∃ g, f = g + 2 := ⟨f - 2, by omega⟩
    have hs' : IsUnits rest' := fun x hx => hs x (by simp [hx])
    have ih' := ih hs' g rest (by omega)
    simp only [Bool.and_eq_true, isHighSurrogate, isLowSurrogate, decide_eq_true_eq] at hpair
    have hc1 : c ≠ 0x22 := by omega
    have hc2 : c ≠ 0x5C := by omega
    have hc3 : ¬ c < 0x20 := by omega
    have hd1 : d ≠ 0x22 := by omega
    have hd2 : d ≠ 0x5C := by omega
    have hd3 : ¬ d < 0x20 := by omega
    simp only [List.cons_append, parseCharsAux, hc1, hc2, hc3, hd1, hd2, hd3, if_false,
      consUnit]
    rw [show (quoteBody rest').append (34 :: rest) = quoteBody rest' ++ 34 :: rest from rfl, ih']
  | case4 c d rest' hpair ih =>
    intro hs f rest hf
    have hc : c < 65536 := hs c (by simp)
    have hpos := quoteUnit_length_pos c
    simp only [quoteBody, hpair, Bool.false_eq_true, if_false, List.length_append] at hf ⊢
    obtain ⟨g, rfl⟩ : ∃ g, f = g + 1 := ⟨f - 1, by omega⟩
    have hs' : IsUnits (d :: rest') := fun x hx => hs x (List.mem_cons_of_mem _ hx)
    have ih' := ih hs' g rest (by omega)
    simp only [List.append_assoc]
    rw [parseCharsAux_quoteUnit c hc, ih']
    rfl

/-- Reading back a quoted string gives the string. -/
theorem parseChars_quoteBody (s : JSString) (hs : IsUnits s) (rest : List Nat) :
    parseChars (quoteBody s ++ 0x22 :: rest) = some (s, rest) := by
  unfold parseChars
  exact parseCharsAux_quoteBody s hs _ rest (by simp)

/-! ## Reading back an integer numeral -/

theorem digitsValue_append_single (ds : List Nat) (d : Nat) :
    digitsValue (ds ++ [d]) = digitsValue ds * 10 + (d - 48) := by
  simp [digitsValue, List.foldl_append]

/-- The numeral written by `natDigitsAux`. -/
theorem natDigitsAux_spec (fuel : Nat) : ∀ n acc, n < fuel →
    ∃ ds, natDigitsAux fuel n acc = ds ++ acc ∧ (∀ d ∈ ds, isDigit d = true) ∧
      digitsValue ds = n ∧ ds ≠ [] ∧ (0 < n → ds.head? ≠ some 48) ∧ (n = 0 → ds = [48]) := by
  induction fuel with
  | zero => intro n acc h; omega
  | succ fuel ih =>
    intro n acc h
    unfold natDigitsAux
    by_cases h0 : n / 10 = 0
    · have hn : n < 10 := by omega
      refine ⟨[48 + n % 10], by simp [h0], ?_, ?_, by simp, ?_, ?_⟩
      · intro d hd
        simp only [List.mem_singleton] at hd
        subst hd
        simp [isDigit]
        omega
      · simp [digitsValue]
        omega
      · intro hp
        simp
        omega
      · intro hz
        simp [hz]
    · obtain ⟨ds, h1, h2, h3, h4, h5, -⟩ := ih (n / 10) ((48 + n % 10) :: acc) (by omega)
      refine ⟨ds ++ [48 + n % 10], by simp [h0, h1], ?_, ?_, by simp, ?_, ?_⟩
      · intro d hd
        rcases List.mem_append.1 hd with hd | hd
        · exact h2 d hd
        · simp only [List.mem_singleton] at hd
          subst hd
          simp [isDigit]
          omega
      · rw [digitsValue_append_single, h3]
        omega
      · intro _
        have := h5 (by omega)
        cases ds with
        | nil => exact absurd rfl h4
        | cons x xs => simpa using this
      · intro hz
        omega

theorem natDigits_spec (n : Nat) :
    (∀ d ∈ natDigits n, isDigit d = true) ∧ digitsValue (natDigits n) = n ∧
      natDigits n ≠ [] ∧ (0 < n → (natDigits n).head? ≠ some 48) ∧ (n = 0 → natDigits n = [48]) := by
  obtain ⟨ds, h1, h⟩ := natDigitsAux_spec (n + 1) n [] (by omega)
  have : natDigits n = ds := by simpa [natDigits] using h1
  rw [this]
  exact h

theorem takeDigits_append (ds rest : List Nat) (hds : ∀ d ∈ ds, isDigit d = true)
    (hrest : ∀ c ∈ rest.head?, isDigit c = false) :
    takeDigits (ds ++ rest) = (ds, rest) := by
  induction ds with
  | nil =>
    cases rest with
    | nil => rfl
    | cons c cs =>
      have := hrest c (by simp)
      simp [takeDigits, this]
  | cons d ds ih =>
    have hd := hds d (by simp)
    have := ih (fun x hx => hds x (List.mem_cons_of_mem _ hx))
    simp [takeDigits, hd, this]

theorem bitLengthAux_le (fuel : Nat) : ∀ n k, n < 2 ^ k → bitLengthAux fuel n ≤ k := by
  induction fuel with
  | zero => intro n k _; simp [bitLengthAux]
  | succ fuel ih =>
    intro n k h
    unfold bitLengthAux
    split
    · omega
    · next hn =>
      cases k with
      | zero => simp at h; omega
      | succ k =>
        have h2 : n / 2 < 2 ^ k := by
          rw [pow_succ] at h
          omega
        have := ih (n / 2) k h2
        omega

theorem bitLength_le (n k : Nat) (h : n < 2 ^ k) : bitLength n ≤ k := bitLengthAux_le n n k h

theorem bitLength_one : bitLength 1 = 1 := by decide

theorem scaleBy_one_nonpos (n : Nat) (e : Int) (he : e ≤ 0) :
    scaleBy n 1 e = (n * 2 ^ (-e).toNat, 1) := by
  unfold scaleBy
  split
  · next h =>
    have : e = 0 := le_antisymm he h
    subst this
    simp
  · rfl

theorem roundAt_exact (neg : Bool) (n : Nat) (e : Int) (h0 : 0 < n) (he : e ≤ 0) :
    roundAt neg n 1 e = .fin ((if neg then -1 else 1) * (n : ℚ)) := by
  obtain ⟨k, rfl⟩ : ∃ k : Nat, e = -(k : Int) := ⟨(-e).toNat, by omega⟩
  have hpos : 0 < n * 2 ^ k := Nat.mul_pos h0 (Nat.two_pow_pos k)
  have hm : n * 2 ^ k ≠ 0 := by omega
  have h2 : ((2 : ℚ) ^ k) ≠ 0 := pow_ne_zero _ (by norm_num)
  simp only [roundAt, scaleBy_one_nonpos n _ he, neg_neg, Int.toNat_ofNat, Nat.div_one,
    Nat.mod_one, Nat.mul_zero, Nat.not_lt_zero, false_or, zero_ne_one, false_and, if_false, hm]
  have h971 : ¬ ((971 : Int) < -(k : Int) ∨ (-(k : Int) = 971 ∧ n * 2 ^ k = 2 ^ 53)) := by omega
  rw [if_neg h971]
  congr 1
  rw [zpow_neg, zpow_natCast]
  push_cast
  field_simp

theorem binaryExponent_one_nonpos (n : Nat) (h : n < 2 ^ 53) : binaryExponent n 1 ≤ 0 := by
  have hl := bitLength_le n 53 h
  simp only [binaryExponent, bitLength_one]
  split
  · omega
  · split <;> omega

/-- A positive integer below `2^53` is its own Number value. -/
theorem toDouble_nat (neg : Bool) (n : Nat) (h0 : 0 < n) (h : n < 2 ^ 53) :
    toDouble neg n 1 = .fin ((if neg then -1 else 1) * (n : ℚ)) := by
  have hn : n ≠ 0 := by omega
  simp only [toDouble, hn, if_false]
  exact roundAt_exact neg n _ h0 (binaryExponent_one_nonpos n h)
theorem delimited_not_digit {rest : List Nat} (hr : Delimited rest) :
    ∀ c ∈ rest.head?, isDigit c = false := by
  intro c hc
  rcases hr c hc with h | h | h <;> subst h <;> decide

theorem parseFraction_delimited {rest : List Nat} (hr : Delimited rest) :
    parseFraction rest = some ([], rest) := by
  cases rest with
  | nil => rfl
  | cons c cs =>
    have hc : c ≠ 0x2E := by
      rcases hr c (by simp) with h | h | h <;> subst h <;> decide
    simp [parseFraction, hc]

theorem parseExponent_delimited {rest : List Nat} (hr : Delimited rest) :
    parseExponent rest = some (0, rest) := by
  cases rest with
  | nil => rfl
  | cons c cs =>
    have hc : ¬ (c = 0x65 ∨ c = 0x45) := by
      rcases hr c (by simp) with h | h | h <;> subst h <;> decide
    simp only [parseExponent, hc, if_false]

theorem numeralValue_integer (neg : Bool) (ds : List Nat) :
    numeralValue neg (ds ++ []) ([] : List Nat).length 0 = toDouble neg (digitsValue ds) 1 := by
  simp [numeralValue]

/-- Reading back the decimal numeral of `n`. -/
theorem parseUnsigned_natDigits (neg : Bool) (n : Nat) (rest : List Nat)
    (hr : Delimited rest) :
    parseUnsigned neg (natDigits n ++ rest) = some (.num (toDouble neg n 1), rest) := by
  obtain ⟨h1, h2, h3, h4, h5⟩ := natDigits_spec n
  cases hds : natDigits n with
  | nil => exact absurd hds h3
  | cons c tl =>
    have hc : isDigit c = true := h1 c (by simp [hds])
    have hip : (if c = 48 then ([48], tl ++ rest) else takeDigits (c :: tl ++ rest : List Nat)) =
        (c :: tl, rest) := by
      by_cases hn : n = 0
      · have := h5 hn
        rw [hds] at this
        simp only [List.cons.injEq] at this
        obtain ⟨rfl, rfl⟩ := this
        simp
      · have hne : c ≠ 48 := by
          have := h4 (Nat.pos_of_ne_zero hn)
          rw [hds] at this
          simpa using this
        rw [if_neg hne, ← hds]
        exact takeDigits_append _ _ h1 (delimited_not_digit hr)
    simp only [parseUnsigned, List.cons_append, hc, if_true]
    rw [show (if c = 48 then ([48], tl ++ rest) else takeDigits (c :: (tl ++ rest))) =
      (c :: tl, rest) from hip]
    simp only [parseFraction_delimited hr, parseExponent_delimited hr]
    rw [numeralValue_integer, ← hds, h2]

/-- Reading back the numeral `Number::toString` writes for an integer of magnitude
below `2^53`. -/
theorem parseNumber_numberToString (fmt : ℚ → JSString) (q : ℚ) (hd : q.den = 1)
    (hq : q.num.natAbs < 2 ^ 53) (rest : List Nat) (hr : Delimited rest) :
    parseNumber (numberToString fmt q ++ rest) = some (.num (.fin q), rest) := by
  have hqn : ((q.num : ℤ) : ℚ) = q := Rat.coe_int_num_of_den_eq_one hd
  obtain ⟨h1, -, h3, -, -⟩ := natDigits_spec q.num.natAbs
  simp only [numberToString, hd, hq, and_self, if_true]
  by_cases hneg : q.num < 0
  · have hpos : 0 < q.num.natAbs := by omega
    simp only [hneg, if_true, List.cons_append, List.nil_append, parseNumber]
    rw [parseUnsigned_natDigits true _ rest hr, toDouble_nat true _ hpos hq]
    have hz : ((q.num.natAbs : ℕ) : ℤ) = -q.num := by omega
    have h' : ((q.num.natAbs : ℕ) : ℚ) = -q :=
      calc ((q.num.natAbs : ℕ) : ℚ) = (((q.num.natAbs : ℕ) : ℤ) : ℚ) := (Int.cast_natCast _).symm
        _ = ((-q.num : ℤ) : ℚ) := by rw [hz]
        _ = -q := by rw [Int.cast_neg, hqn]
    simp [h']
  · simp only [hneg, if_false, List.nil_append]
    cases hds : natDigits q.num.natAbs with
    | nil => exact absurd hds h3
    | cons c tl =>
      have hc : isDigit c = true := h1 c (by simp [hds])
      have hc2 : c ≠ 0x2D := by
        intro e
        subst e
        simp [isDigit] at hc
      simp only [List.cons_append, parseNumber, hc2, if_false]
      rw [show c :: (tl ++ rest) = natDigits q.num.natAbs ++ rest by simp [hds],
        parseUnsigned_natDigits false _ rest hr]
      have hz : ((q.num.natAbs : ℕ) : ℤ) = q.num := by omega
      have hcast : ((q.num.natAbs : ℕ) : ℚ) = q :=
        calc ((q.num.natAbs : ℕ) : ℚ) = (((q.num.natAbs : ℕ) : ℤ) : ℚ) :=
              (Int.cast_natCast _).symm
          _ = q := by rw [hz, hqn]
      by_cases hz0 : q.num.natAbs = 0
      · have hq0 : q = 0 := by rw [← hcast, hz0]; simp
        simp [hz0, toDouble, hq0]
      · rw [toDouble_nat false _ (Nat.pos_of_ne_zero hz0) hq]
        simp [hcast]

/-! ## Reading back a serialized value -/

theorem skipWs_cons {c : Nat} (h : isJsonWs c = false) (cs : List Nat) :
    skipWs (c :: cs) = c :: cs := by
  simp [skipWs, h]

theorem expectLit_append (lit : List Nat) (v : JSValue) (rest : List Nat) :
    expectLit lit v (lit ++ rest) = some (v, rest) := by
  have h : lit.isPrefixOf (lit ++ rest) = true :=
    List.isPrefixOf_iff_prefix.2 (List.prefix_append _ _)
  simp [expectLit, h]

theorem js_null : js "null" = [110, 117, 108, 108] := by decide

theorem js_true : js "true" = [116, 114, 117, 101] := by decide

theorem js_false : js "false" = [102, 97, 108, 115, 101] := by decide

theorem parseNumber_head {cs : List Nat} {r : JSValue × List Nat}
    (h : parseNumber cs = some r) : ∃ c tl, cs = c :: tl ∧ (c = 0x2D ∨ isDigit c = true) := by
  cases cs with
  | nil => simp [parseNumber] at h
  | cons c tl =>
    refine ⟨c, tl, rfl, ?_⟩
    by_cases hc : c = 0x2D
    · exact Or.inl hc
    · right
      simp only [parseNumber, hc, if_false, parseUnsigned] at h
      by_cases hd : isDigit c = true
      · exact hd
      · simp [hd] at h

theorem parseValue_number (f : Nat) (cs : List Nat) (r : JSValue × List Nat)
    (h : parseNumber cs = some r) : parseValue (f + 1) cs = some r := by
  obtain ⟨c, tl, rfl, hc⟩ := parseNumber_head h
  have hws : isJsonWs c = false := by
    rcases hc with hc | hc
    · subst hc; decide
    · simp only [isDigit, Bool.and_eq_true, decide_eq_true_eq] at hc
      simp only [isJsonWs, Bool.or_eq_false_iff, beq_eq_false_iff_ne, ne_eq]
      omega
  have h1 : c ≠ 0x22 ∧ c ≠ 0x5B ∧ c ≠ 0x7B ∧ c ≠ 0x74 ∧ c ≠ 0x66 ∧ c ≠ 0x6E := by
    rcases hc with hc | hc
    · subst hc; decide
    · simp only [isDigit, Bool.and_eq_true, decide_eq_true_eq] at hc
      omega
  simp only [parseValue, skipWs_cons hws, h1.1, h1.2.1, h1.2.2.1, h1.2.2.2.1, h1.2.2.2.2.1,
    h1.2.2.2.2.2, if_false, h]

theorem startsValue_of_parseNumber {cs rest : List Nat} {r : JSValue × List Nat}
    (h : parseNumber (cs ++ rest) = some r) (hcs : cs ≠ []) : StartsValue cs := by
  obtain ⟨c, tl, he, hc⟩ := parseNumber_head h
  cases cs with
  | nil => exact absurd rfl hcs
  | cons d ds =>
    simp only [List.cons_append, List.cons.injEq] at he
    obtain ⟨rfl, -⟩ := he
    refine ⟨d, ds, rfl, ?_⟩
    rcases hc with hc | hc
    · subst hc; decide
    · simp only [isDigit, Bool.and_eq_true, decide_eq_true_eq] at hc
      simp only [isJsonWs, Bool.or_eq_false_iff, beq_eq_false_iff_ne, ne_eq]
      omega

theorem delimited_comma (rest : List Nat) : Delimited (0x2C :: rest) := by
  intro c hc
  simp only [List.head?_cons, Option.mem_def, Option.some.injEq] at hc
  exact Or.inl hc.symm

theorem delimited_bracket (rest : List Nat) : Delimited (0x5D :: rest) := by
  intro c hc
  simp only [List.head?_cons, Option.mem_def, Option.some.injEq] at hc
  exact Or.inr (Or.inl hc.symm)

theorem delimited_brace (rest : List Nat) : Delimited (0x7D :: rest) := by
  intro c hc
  simp only [List.head?_cons, Option.mem_def, Option.some.injEq] at hc
  exact Or.inr (Or.inr hc.symm)

theorem delimited_nil : Delimited [] := by
  intro c hc
  simp at hc

/-- A lossless value is written as a text, and the text starts a JSON value. -/
theorem stringifyValue_lossless (fmt : ℚ → JSString) (v : JSValue) (h : Lossless fmt v) :
    stringifyValue fmt v = some (valueText fmt v) ∧ StartsValue (valueText fmt v) := by
  cases v with
  | undefined => simp [Lossless] at h
  | null =>
    exact ⟨rfl, 110, [117, 108, 108], by simp [valueText, stringifyValue, js_null],
      by decide, by decide, by decide⟩
  | bool b =>
    cases b with
    | true =>
      exact ⟨rfl, 116, [114, 117, 101], by simp [valueText, stringifyValue, js_true],
        by decide, by decide, by decide⟩
    | false =>
      exact ⟨rfl, 102, [97, 108, 115, 101], by simp [valueText, stringifyValue, js_false],
        by decide, by decide, by decide⟩
  | num n =>
    refine ⟨rfl, ?_⟩
    cases n with
    | fin q =>
      simp only [Lossless, NumberPrints] at h
      have h0 := h [] delimited_nil
      have hne : numberToString fmt q ≠ [] := by
        intro e
        rw [e] at h0
        simp [parseNumber] at h0
      exact startsValue_of_parseNumber h0 hne
    | nan => simp [Lossless, NumberPrints] at h
    | posInf => simp [Lossless, NumberPrints] at h
    | negInf => simp [Lossless, NumberPrints] at h
    | negZero => simp [Lossless, NumberPrints] at h
  | str s =>
    exact ⟨rfl, 0x22, quoteBody s ++ [0x22], rfl, by decide, by decide, by decide⟩
  | arr xs =>
    exact ⟨rfl, 0x5B, stringifyElems fmt xs ++ [0x5D], rfl, by decide, by decide, by decide⟩
  | obj ps =>
    exact ⟨rfl, 0x7B, stringifyProps fmt false ps ++ [0x7D], rfl, by decide, by decide,
      by decide⟩

theorem stringifyElems_cons_cons (fmt : ℚ → JSString) (x y : JSValue) (xs : List JSValue) :
    stringifyElems fmt (x :: y :: xs) =
      valueText fmt x ++ 0x2C :: stringifyElems fmt (y :: xs) := by
  simp [stringifyElems, valueText]

theorem stringifyElems_single (fmt : ℚ → JSString) (x : JSValue) :
    stringifyElems fmt [x] = valueText fmt x := by
  simp [stringifyElems, valueText]

theorem stringifyProps_cons (fmt : ℚ → JSString) (sep : Bool) (k : JSString) (v : JSValue)
    (ps : List (JSString × JSValue)) (hv : Lossless fmt v) :
    stringifyProps fmt sep ((k, v) :: ps) =
      (if sep then [0x2C] else []) ++ quoteJSONString k ++
        0x3A :: valueText fmt v ++ stringifyProps fmt true ps := by
  simp [stringifyProps, (stringifyValue_lossless fmt v hv).1]

mutual
/-- Reading back the text of a lossless value gives the value. -/
theorem parseValue_valueText (fmt : ℚ → JSString) :
    ∀ (v : JSValue), Lossless fmt v → ∀ (f : Nat) (rest : List Nat),
      (valueText fmt v).length ≤ f → Delimited rest →
      parseValue f (valueText fmt v ++ rest) = some (v, rest)
  | .undefined, h, _, _, _, _ => by simp [Lossless] at h
  | .null, _, f, rest, hf, _ => by
    obtain ⟨g, rfl⟩ : ∃ g, f = g + 1 := ⟨f - 1, by
      simp only [valueText, stringifyValue, Option.getD_some, js_null] at hf
      simp at hf
      omega⟩
    simp only [valueText, stringifyValue, Option.getD_some]
    have := expectLit_append (js "null") .null rest
    rw [js_null] at this ⊢
    simpa [parseValue, skipWs, isJsonWs] using this
  | .bool true, _, f, rest, hf, _ => by
    obtain ⟨g, rfl⟩ : ∃ g, f = g + 1 := ⟨f - 1, by
      simp only [valueText, stringifyValue, Option.getD_some, js_true] at hf
      simp at hf
      omega⟩
    simp only [valueText, stringifyValue, Option.getD_some]
    have := expectLit_append (js "true") (.bool true) rest
    rw [js_true] at this ⊢
    simpa [parseValue, skipWs, isJsonWs] using this
  | .bool false, _, f, rest, hf, _ => by
    obtain ⟨g, rfl⟩ : ∃ g, f = g + 1 := ⟨f - 1, by
      simp only [valueText, stringifyValue, Option.getD_some, js_false] at hf
      simp at hf
      omega⟩
    simp only [valueText, stringifyValue, Option.getD_some]
    have := expectLit_append (js "false") (.bool false) rest
    rw [js_false] at this ⊢
    simpa [parseValue, skipWs, isJsonWs] using this
  | .num n, h, f, rest, hf, hr => by
    cases n with
    | fin q =>
      simp only [Lossless, NumberPrints] at h
      have hs := (stringifyValue_lossless fmt (.num (.fin q)) h).2
      obtain ⟨c, tl, hc, -⟩ := hs
      obtain ⟨g, rfl⟩ : ∃ g, f = g + 1 := ⟨f - 1, by
        rw [hc] at hf
        simp at hf
        omega⟩
      exact parseValue_number g _ _ (h rest hr)
    | nan => simp [Lossless, NumberPrints] at h
    | posInf => simp [Lossless, NumberPrints] at h
    | negInf => simp [Lossless, NumberPrints] at h
    | negZero => simp [Lossless, NumberPrints] at h
  | .str s, h, f, rest, hf, _ => by
    simp only [Lossless] at h
    obtain ⟨g, rfl⟩ : ∃ g, f = g + 1 := ⟨f - 1, by
      simp only [valueText, stringifyValue, Option.getD_some, quoteJSONString] at hf
      simp at hf
      omega⟩
    simp only [valueText, stringifyValue, Option.getD_some, quoteJSONString, List.cons_append,
      List.append_assoc, List.singleton_append]
    simp [parseValue, skipWs, isJsonWs, parseChars_quoteBody s h rest]
  | .arr xs, h, f, rest, hf, _ => by
    simp only [Lossless] at h
    simp only [valueText, stringifyValue, Option.getD_some, List.length_cons,
      List.length_append, List.length_singleton] at hf
    obtain ⟨g, rfl⟩ : ∃ g, f = g + 1 := ⟨f - 1, by omega⟩
    simp only [valueText, stringifyValue, Option.getD_some, List.cons_append,
      List.append_assoc, List.singleton_append]
    cases xs with
    | nil => simp [parseValue, skipWs, isJsonWs, stringifyElems]
    | cons x xs =>
      have hx : Lossless fmt x := by
        simp only [LosslessElems] at h
        exact h.1
      have helems := parseElems_valueText fmt (x :: xs) h (by simp) g rest (by omega)
      have hstart : StartsValue (stringifyElems fmt (x :: xs)) := by
        obtain ⟨c, tl, hc, h1, h2, h3⟩ := (stringifyValue_lossless fmt x hx).2
        cases xs with
        | nil => exact ⟨c, tl, by rw [stringifyElems_single, hc], h1, h2, h3⟩
        | cons y ys =>
          exact ⟨c, tl ++ 0x2C :: stringifyElems fmt (y :: ys),
            by rw [stringifyElems_cons_cons, hc]; rfl, h1, h2, h3⟩
      obtain ⟨c, tl, hc, h1, h2, -⟩ := hstart
      rw [hc] at helems ⊢
      simp only [List.cons_append] at helems ⊢
      simp only [parseValue, skipWs_cons (show isJsonWs 91 = false by decide), skipWs_cons h1]
      simp [h2, helems]
  | .obj ps, h, f, rest, hf, _ => by
    simp only [Lossless] at h
    simp only [valueText, stringifyValue, Option.getD_some, List.length_cons,
      List.length_append, List.length_singleton] at hf
    obtain ⟨g, rfl⟩ : ∃ g, f = g + 1 := ⟨f - 1, by omega⟩
    simp only [valueText, stringifyValue, Option.getD_some, List.cons_append,
      List.append_assoc, List.singleton_append]
    cases ps with
    | nil => simp [parseValue, skipWs, isJsonWs, stringifyProps]
    | cons p ps =>
      obtain ⟨k, v⟩ := p
      have hmem := parseMembers_valueText fmt ((k, v) :: ps) h.1 (by simp) g [] rest (by omega)
      have horder : List.foldl (fun acc p => setProp acc p.1 p.2) [] ((k, v) :: ps) =
          (k, v) :: ps := h.2
      rw [horder] at hmem
      have hv : Lossless fmt v := by
        have := h.1
        simp only [LosslessProps] at this
        exact this.2.1
      rw [stringifyProps_cons fmt false k v ps hv] at hmem ⊢
      simp only [Bool.false_eq_true, if_false, List.nil_append, quoteJSONString,
        List.cons_append, List.append_assoc] at hmem ⊢
      simp [parseValue, skipWs, isJsonWs, hmem]
/-- Reading back the elements of a serialized non-empty array. -/
theorem parseElems_valueText (fmt : ℚ → JSString) :
    ∀ (xs : List JSValue), LosslessElems fmt xs → xs ≠ [] → ∀ (f : Nat) (rest : List Nat),
      (stringifyElems fmt xs).length + 1 ≤ f →
      parseElems f (stringifyElems fmt xs ++ 0x5D :: rest) = some (xs, rest)
  | [], _, hne, _, _, _ => absurd rfl hne
  | [x], h, _, f, rest, hf => by
    simp only [LosslessElems] at h
    obtain ⟨g, rfl⟩ : ∃ g, f = g + 1 := ⟨f - 1, by omega⟩
    rw [stringifyElems_single] at hf ⊢
    have hx := parseValue_valueText fmt x h.1 g (0x5D :: rest) (by omega) (delimited_bracket rest)
    simp [parseElems, hx, skipWs, isJsonWs]
  | x :: y :: xs, h, _, f, rest, hf => by
    simp only [LosslessElems] at h
    obtain ⟨g, rfl⟩ : ∃ g, f = g + 1 := ⟨f - 1, by omega⟩
    rw [stringifyElems_cons_cons] at hf ⊢
    simp only [List.length_append, List.length_cons] at hf
    have hx := parseValue_valueText fmt x h.1 g
      (0x2C :: (stringifyElems fmt (y :: xs) ++ 0x5D :: rest)) (by omega) (delimited_comma _)
    have hrest := parseElems_valueText fmt (y :: xs) (by simpa [LosslessElems] using h.2)
      (by simp) g rest (by omega)
    simp only [List.append_assoc, List.cons_append]
    simp [parseElems, hx, skipWs, isJsonWs, hrest]
/-- Reading back the members of a serialized non-empty object. -/
theorem parseMembers_valueText (fmt : ℚ → JSString) :
    ∀ (ps : List (JSString × JSValue)), LosslessProps fmt ps → ps ≠ [] →
      ∀ (f : Nat) (acc : List (JSString × JSValue)) (rest : List Nat),
      (stringifyProps fmt false ps).length ≤ f →
      parseMembers f acc (stringifyProps fmt false ps ++ 0x7D :: rest) =
        some (ps.foldl (fun a p => setProp a p.1 p.2) acc, rest)
  | [], _, hne, _, _, _, _ => absurd rfl hne
  | [(k, v)], h, _, f, acc, rest, hf => by
    simp only [LosslessProps] at h
    rw [stringifyProps_cons fmt false k v [] h.2.1] at hf ⊢
    simp only [Bool.false_eq_true, if_false, List.nil_append, quoteJSONString,
      List.cons_append, List.append_assoc, List.length_cons, List.length_append,
      stringifyProps, List.length_nil, List.append_nil] at hf ⊢
    obtain ⟨g, rfl⟩ : ∃ g, f = g + 1 := ⟨f - 1, by omega⟩
    have hk := parseChars_quoteBody k h.1 (0x3A :: (valueText fmt v ++ 0x7D :: rest))
    have hx := parseValue_valueText fmt v h.2.1 g (0x7D :: rest) (by omega) (delimited_brace rest)
    simp only [List.singleton_append] at hk ⊢
    simp [parseMembers, skipWs, isJsonWs, hk, hx]
  | (k, v) :: (k2, v2) :: ps, h, _, f, acc, rest, hf => by
    simp only [LosslessProps] at h
    have h2 : LosslessProps fmt ((k2, v2) :: ps) := by
      simp only [LosslessProps]
      exact h.2.2
    rw [stringifyProps_cons fmt false k v _ h.2.1] at hf ⊢
    rw [stringifyProps_cons fmt true k2 v2 ps h.2.2.2.1] at hf ⊢
    have hrest := parseMembers_valueText fmt ((k2, v2) :: ps) h2 (by simp)
    rw [stringifyProps_cons fmt false k2 v2 ps h.2.2.2.1] at hrest
    simp only [Bool.false_eq_true, if_false, if_true, List.nil_append, quoteJSONString,
      List.cons_append, List.append_assoc, List.length_cons, List.length_append,
      List.singleton_append] at hf hrest ⊢
    obtain ⟨g, rfl⟩ : ∃ g, f = g + 1 := ⟨f - 1, by omega⟩
    have hk := parseChars_quoteBody k h.1 (0x3A :: (valueText fmt v ++ 0x2C :: 0x22 ::
      (quoteBody k2 ++ 0x22 :: 0x3A :: (valueText fmt v2 ++
        (stringifyProps fmt true ps ++ 0x7D :: rest)))))
    have hx := parseValue_valueText fmt v h.2.1 g (0x2C :: 0x22 ::
      (quoteBody k2 ++ 0x22 :: 0x3A :: (valueText fmt v2 ++
        (stringifyProps fmt true ps ++ 0x7D :: rest)))) (by omega) (delimited_comma _)
    have hrest' := hrest g (setProp acc k v) rest (by omega)
    simp [parseMembers, skipWs, isJsonWs, hk, hx, hrest']
end

/-! ## Saving and loading back -/

theorem losslessElems_of_forall (fmt : ℚ → JSString) (xs : List JSValue)
    (h : ∀ t ∈ xs, Lossless fmt t) : LosslessElems fmt xs := by
  induction xs with
  | nil => simp [LosslessElems]
  | cons x xs ih =>
    simp only [LosslessElems]
    exact ⟨h x (by simp), ih (fun t ht => h t (List.mem_cons_of_mem _ ht))⟩

/-- Parsing the serialization of lossless tasks gives the tasks back. -/
theorem JSONparse_JSONstringify (fmt : ℚ → JSString) (tasks : List JSValue)
    (h : ∀ t ∈ tasks, Lossless fmt t) :
    JSONparse (JSONstringify fmt tasks) = some (.arr tasks) := by
  have hl : Lossless fmt (.arr tasks) := by
    simp only [Lossless]
    exact losslessElems_of_forall fmt tasks h
  have ht : valueText fmt (.arr tasks) = JSONstringify fmt tasks := rfl
  have hp := parseValue_valueText fmt (.arr tasks) hl (2 * (JSONstringify fmt tasks).length + 1)
    [] (by rw [ht]; omega) delimited_nil
  rw [ht, List.append_nil] at hp
  simp [JSONparse, hp, skipWs]

/-! ## The tasks the store builds itself -/

theorem numberPrints_of_int (fmt : ℚ → JSString) (q : ℚ) (hd : q.den = 1)
    (hq : q.num.natAbs < 2 ^ 53) : NumberPrints fmt (.fin q) :=
  fun rest hr => parseNumber_numberToString fmt q hd hq rest hr

theorem isUnits_trim {s : JSString} (h : IsUnits s) : IsUnits (trim s) := by
  intro c hc
  apply h
  unfold trim at hc
  have h1 := List.mem_reverse.1 hc
  have h2 := (List.dropWhile_sublist isTrimUnit).subset h1
  have h3 := List.mem_reverse.1 h2
  exact (List.dropWhile_sublist isTrimUnit).subset h3

theorem arrayIndex_id : arrayIndex? [105, 100] = none := by decide

theorem arrayIndex_text : arrayIndex? [116, 101, 120, 116] = none := by decide

theorem arrayIndex_completed : arrayIndex? [99, 111, 109, 112, 108, 101, 116, 101, 100] = none := by decide

theorem arrayIndex_createdAt : arrayIndex? [99, 114, 101, 97, 116, 101, 100, 65, 116] = none := by decide

theorem arrayIndex_updatedAt : arrayIndex? [117, 112, 100, 97, 116, 101, 100, 65, 116] = none := by decide

theorem isUnits_js_id : IsUnits (js "id") := by unfold IsUnits; decide

theorem isUnits_js_text : IsUnits (js "text") := by unfold IsUnits; decide

theorem isUnits_js_completed : IsUnits (js "completed") := by unfold IsUnits; decide

theorem isUnits_js_createdAt : IsUnits (js "createdAt") := by unfold IsUnits; decide

theorem isUnits_js_updatedAt : IsUnits (js "updatedAt") := by unfold IsUnits; decide

/-- A task of the form `createTask` builds is lossless. -/
theorem ownTask_lossless {fmt : ℚ → JSString} {t : JSValue} (h : OwnTask fmt t) :
    Lossless fmt t := by
  obtain ⟨n, s, b, c, u, rfl, hn, hs, hc, hu⟩ := h
  simp only [Lossless, LosslessProps]
  refine ⟨⟨isUnits_js_id, hn, isUnits_js_text, hs, isUnits_js_completed, trivial,
    isUnits_js_createdAt, hc, isUnits_js_updatedAt, hu, trivial⟩, ?_⟩
  simp [InCreationOrder, setProp, hasProp, lookupProp, arrayIndex_id, arrayIndex_text,
    arrayIndex_completed, arrayIndex_createdAt, arrayIndex_updatedAt, js_id, js_text,
    js_completed, js_createdAt, js_updatedAt]

theorem ownTask_shape {fmt : ℚ → JSString} {t : JSValue} (h : OwnTask fmt t) :
    taskShapeOk t = true := by
  obtain ⟨n, s, b, c, u, rfl, -⟩ := h
  simp [taskShapeOk, toBoolean, propType, getProp, lookupProp, typeof, js_id, js_text,
    js_completed, js_createdAt]

theorem putProp_completed_own {fmt : ℚ → JSString} {t t' : JSValue} {b' : Bool}
    (h : OwnTask fmt t) (hp : putProp t (js "completed") (.bool b') = some t') :
    OwnTask fmt t' := by
  obtain ⟨n, s, b, c, u, rfl, hn, hs, hc, hu⟩ := h
  simp [putProp, setProp, hasProp, lookupProp, replaceProp, js_id, js_text,
    js_completed] at hp
  subst hp
  exact ⟨n, s, b', c, u, by simp [js_id, js_text, js_completed], hn, hs, hc, hu⟩

theorem putProp_updatedAt_own {fmt : ℚ → JSString} {t t' : JSValue} {w : JSString}
    (h : OwnTask fmt t) (hw : IsUnits w)
    (hp : putProp t (js "updatedAt") (.str w) = some t') : OwnTask fmt t' := by
  obtain ⟨n, s, b, c, u, rfl, hn, hs, hc, hu⟩ := h
  simp [putProp, setProp, hasProp, lookupProp, replaceProp, js_id, js_text,
    js_completed, js_createdAt, js_updatedAt] at hp
  subst hp
  exact ⟨n, s, b, c, .str w, by simp [js_id, js_text, js_completed, js_createdAt, js_updatedAt],
    hn, hs, hc, by simpa [Lossless] using hw⟩

theorem putProp_text_own {fmt : ℚ → JSString} {t t' : JSValue} {w : JSString}
    (h : OwnTask fmt t) (hw : IsUnits w)
    (hp : putProp t (js "text") (.str w) = some t') : OwnTask fmt t' := by
  obtain ⟨n, s, b, c, u, rfl, hn, hs, hc, hu⟩ := h
  simp [putProp, setProp, hasProp, lookupProp, replaceProp, js_id, js_text] at hp
  subst hp
  exact ⟨n, w, b, c, u, by simp [js_id, js_text], hn, hw, hc, hu⟩

theorem createTask_own {fmt : ℚ → JSString} {env : Env} {text task : JSValue}
    (he : WellFormedEnv fmt env) (ht : ∀ s, text = .str s → IsUnits s)
    (h : createTask env text = some task) : OwnTask fmt task := by
  cases text with
  | str s =>
    simp only [createTask, Option.some.injEq] at h
    subst h
    exact ⟨env.msNow, trim s, false, env.isoNow, .null, rfl, he.2.2, isUnits_trim (ht s rfl),
      he.2.1, by simp [Lossless]⟩
  | undefined => simp [createTask] at h
  | null => simp [createTask] at h
  | bool b => simp [createTask] at h
  | num n => simp [createTask] at h
  | arr xs => simp [createTask] at h
  | obj ps => simp [createTask] at h

/-- Each well-formed call keeps the tasks of the form `createTask` builds. -/
theorem perform_own (fmt : ℚ → JSString) (env : Env) (st : Store) (call : Call)
    (he : WellFormedEnv fmt env) (hc : WellFormedCall call)
    (h0 : ∀ t ∈ st.tasks, OwnTask fmt t) :
    ∀ t ∈ (perform env st call).store.tasks, OwnTask fmt t := by
  cases call with
  | add text =>
    exact addTask_preserves (OwnTask fmt) env st text
      (fun _ _ hct => createTask_own he hc hct) h0
  | toggle index =>
    exact toggleTask_preserves (OwnTask fmt) env st index
      (fun _ _ _ ht h => putProp_completed_own ht h)
      (fun _ _ ht h => putProp_updatedAt_own ht he.2.1 h) h0
  | delete index => exact deleteTask_preserves (OwnTask fmt) env st index h0
  | update index newText =>
    exact updateTask_preserves (OwnTask fmt) env st index newText
      (fun s _ _ hs _ ht h => putProp_text_own ht (isUnits_trim (hc s hs)) h)
      (fun _ _ ht h => putProp_updatedAt_own ht he.2.1 h) h0

/-! ## The structural invariant of the store -/

theorem putProp_shape {t t' : JSValue} {k : JSString} {x : JSValue}
    (ht : HasTaskShape t) (h : putProp t k x = some t')
    (hid : k ≠ js "id") (hcreated : k ≠ js "createdAt")
    (htext : k = js "text" → ∃ s, x = .str s)
    (hcompleted : k = js "completed" → ∃ b, x = .bool b) : HasTaskShape t' := by
  obtain ⟨ps, rfl, ⟨n, hn⟩, ⟨s, hs⟩, ⟨b, hb⟩, ⟨c, hc⟩⟩ := ht
  simp only [putProp, Option.some.injEq] at h
  subst h
  refine ⟨_, rfl, ⟨n, ?_⟩, ?_, ?_, ⟨c, ?_⟩⟩
  · rw [lookupProp_setProp_ne _ hid, hn]
  · by_cases hk : k = js "text"
    · obtain ⟨w, rfl⟩ := htext hk
      exact ⟨w, by rw [hk, lookupProp_setProp_self]⟩
    · exact ⟨s, by rw [lookupProp_setProp_ne _ hk, hs]⟩
  · by_cases hk : k = js "completed"
    · obtain ⟨w, rfl⟩ := hcompleted hk
      exact ⟨w, by rw [hk, lookupProp_setProp_self]⟩
    · exact ⟨b, by rw [lookupProp_setProp_ne _ hk, hb]⟩
  · rw [lookupProp_setProp_ne _ hcreated, hc]

theorem createTask_shape {env : Env} {text task : JSValue}
    (h : createTask env text = some task) : HasTaskShape task := by
  cases text with
  | str s =>
    simp only [createTask, Option.some.injEq] at h
    subst h
    exact ⟨_, rfl, ⟨env.msNow, by simp [lookupProp]⟩,
      ⟨trim s, by simp [lookupProp, js_id, js_text]⟩,
      ⟨false, by simp [lookupProp, js_id, js_text, js_completed]⟩,
      ⟨env.isoNow, by simp [lookupProp, js_id, js_text, js_completed, js_createdAt]⟩⟩
  | undefined => simp [createTask] at h
  | null => simp [createTask] at h
  | bool b => simp [createTask] at h
  | num n => simp [createTask] at h
  | arr xs => simp [createTask] at h
  | obj ps => simp [createTask] at h

/-- Each call keeps the array one that `validateTasks` accepts. -/
theorem perform_valid (env : Env) (st : Store) (call : Call)
    (h0 : validateTasks (.arr st.tasks) = true) :
    validateTasks (.arr (perform env st call).store.tasks) = true := by
  have h0' : ∀ t ∈ st.tasks, HasTaskShape t := by
    obtain ⟨xs, hxs, hall⟩ := (validateTasks_iff _).1 h0
    cases hxs
    exact hall
  have hupd : ∀ t t', HasTaskShape t →
      putProp t (js "updatedAt") (.str env.isoNow) = some t' → HasTaskShape t' :=
    fun _ _ ht h => putProp_shape ht h (by decide) (by decide)
      (fun e => absurd e (by decide)) (fun e => absurd e (by decide))
  have key : ∀ t ∈ (perform env st call).store.tasks, HasTaskShape t := by
    cases call with
    | add text =>
      exact addTask_preserves HasTaskShape env st text (fun _ _ hc => createTask_shape hc) h0'
    | toggle index =>
      exact toggleTask_preserves HasTaskShape env st index
        (fun _ _ b ht h => putProp_shape ht h (by decide) (by decide)
          (fun e => absurd e (by decide)) (fun _ => ⟨b, rfl⟩)) hupd h0'
    | delete index => exact deleteTask_preserves HasTaskShape env st index h0'
    | update index newText =>
      exact updateTask_preserves HasTaskShape env st index newText
        (fun s _ _ _ _ ht h => putProp_shape ht h (by decide) (by decide)
          (fun _ => ⟨trim s, rfl⟩) (fun e => absurd e (by decide))) hupd h0'
  exact (validateTasks_iff _).2 ⟨_, rfl, key⟩

/-- The state the constructor builds is one that `validateTasks` accepts. -/
theorem construct_valid (blob : Option JSString) :
    validateTasks (.arr (construct blob).tasks) = true := by
  simp only [construct, loadTasks]
  split
  · rename_i tasks _
    split
    · rename_i hv
      cases tasks <;> simp_all [validateTasks, arrayElems]
    · rfl
  · rfl

/-- Every state the store reaches is one that `validateTasks` accepts: this is the
invariant the statements about `toggleTask`, `updateTask` and `save` assume. -/
theorem reachable_valid (blob : Option JSString) (calls : List (Env × Call)) :
    validateTasks (.arr (run (construct blob) calls).tasks) = true := by
  have h : ∀ (cs : List (Env × Call)) (st : Store), validateTasks (.arr st.tasks) = true →
      validateTasks (.arr (run st cs).tasks) = true := by
    intro cs
    induction cs with
    | nil => intro st h; exact h
    | cons c cs ih =>
      intro st h
      obtain ⟨e, call⟩ := c
      exact ih _ (perform_valid e st call h)
  exact h calls _ (construct_valid blob)

/-- From the empty store, well-formed calls lead to a state that a successful `save`
and `loadTasks` reproduce. -/
theorem own_store_roundtrip (fmt : ℚ → JSString) (calls : List (Env × Call)) (env : Env)
    (hcalls : ∀ c ∈ calls, WellFormedEnv fmt c.1 ∧ WellFormedCall c.2)
    (he : env.fmt = fmt)
    (hw : env.setItemOk (JSONstringify env.fmt (run emptyStore calls).tasks) = true) :
    loadTasks (save env (run emptyStore calls)).1.blob = (run emptyStore calls).tasks := by
  have hown : ∀ (cs : List (Env × Call)) (st : Store),
      (∀ c ∈ cs, WellFormedEnv fmt c.1 ∧ WellFormedCall c.2) →
      (∀ t ∈ st.tasks, OwnTask fmt t) → ∀ t ∈ (run st cs).tasks, OwnTask fmt t := by
    intro cs
    induction cs with
    | nil => intro st _ h; exact h
    | cons c cs ih =>
      intro st hcs h
      obtain ⟨e, call⟩ := c
      have hc := hcs (e, call) (by simp)
      exact ih _ (fun c hc' => hcs c (List.mem_cons_of_mem _ hc'))
        (perform_own fmt e st call hc.1 hc.2 h)
  have h := hown calls emptyStore hcalls (by simp [emptyStore])
  subst he
  have hv : validateTasks (.arr (run emptyStore calls).tasks) = true := by
    simp only [validateTasks, List.all_eq_true]
    exact fun t ht => ownTask_shape (h t ht)
  have hb : (save env (run emptyStore calls)).1.blob =
      some (JSONstringify env.fmt (run emptyStore calls).tasks) := by
    simp [save, hw]
  have hp := JSONparse_JSONstringify env.fmt _ (fun t ht => ownTask_lossless (h t ht))
  rw [hb]
  simp [loadTasks, hp, hv, arrayElems]

/-! ## Property lists in enumeration order -/

theorem digitsValue_pos : ∀ (l : List Nat), l ≠ [] → (∀ d ∈ l, isDigit d = true) →
    l.head? ≠ some 48 → 0 < digitsValue l := by
  intro l
  induction l using List.reverseRecOn with
  | nil => intro h; exact absurd rfl h
  | append_singleton init d ih =>
    intro _ hd hh
    rw [digitsValue_append_single]
    cases init with
    | nil =>
      have h1 := hd d (by simp)
      simp only [isDigit, Bool.and_eq_true, decide_eq_true_eq] at h1
      simp only [List.nil_append, List.head?_cons, ne_eq, Option.some.injEq] at hh
      omega
    | cons x xs =>
      have := ih (by simp) (fun e he => hd e (List.mem_append_left _ he)) (by simpa using hh)
      omega

/-- Two numerals without leading zero that have the same value are equal. -/
theorem digitsValue_injective : ∀ (l l' : List Nat),
    (∀ d ∈ l, isDigit d = true) → (∀ d ∈ l', isDigit d = true) →
    l.head? ≠ some 48 → l'.head? ≠ some 48 → digitsValue l = digitsValue l' → l = l' := by
  intro l
  induction l using List.reverseRecOn with
  | nil =>
    intro l' _ hd' _ hh' hv
    cases l' with
    | nil => rfl
    | cons x xs =>
      have := digitsValue_pos (x :: xs) (by simp) hd' hh'
      have h0 : digitsValue ([] : List Nat) = 0 := rfl
      rw [h0] at hv
      omega
  | append_singleton init d ih =>
    intro l' hd hd' hh hh' hv
    have hpos : 0 < digitsValue (init ++ [d]) := digitsValue_pos _ (by simp) hd hh
    rcases List.eq_nil_or_concat l' with rfl | ⟨init', d', rfl⟩
    · have h0 : digitsValue ([] : List Nat) = 0 := rfl
      rw [h0] at hv
      omega
    · simp only [List.concat_eq_append] at hd' hh' hv ⊢
      rw [digitsValue_append_single, digitsValue_append_single] at hv
      have h1 := hd d (by simp)
      have h2 := hd' d' (by simp)
      simp only [isDigit, Bool.and_eq_true, decide_eq_true_eq] at h1 h2
      have hdd : d = d' := by omega
      have hvv : digitsValue init = digitsValue init' := by omega
      have hi : init.head? ≠ some 48 := by
        cases init with
        | nil => simp
        | cons x xs => simpa using hh
      have hi' : init'.head? ≠ some 48 := by
        cases init' with
        | nil => simp
        | cons x xs => simpa using hh'
      rw [ih init' (fun e he => hd e (List.mem_append_left _ he))
        (fun e he => hd' e (List.mem_append_left _ he)) hi hi' hvv, hdd]

/-- A key is determined by the array index it denotes. -/
theorem arrayIndex_injective {k k' : JSString} {n : Nat}
    (h : arrayIndex? k = some n) (h' : arrayIndex? k' = some n) : k = k' := by
  unfold arrayIndex? at h h'
  split at h
  · rename_i hc
    split at h'
    · rename_i hc'
      simp only [Option.some.injEq] at h h'
      simp only [Bool.and_eq_true, List.all_eq_true, Bool.not_eq_true', List.isEmpty_eq_false,
        Bool.or_eq_true, bne_iff_ne, ne_eq, beq_iff_eq, decide_eq_true_eq] at hc hc'
      obtain ⟨⟨⟨hd, hne⟩, hz⟩, -⟩ := hc
      obtain ⟨⟨⟨hd', hne'⟩, hz'⟩, -⟩ := hc'
      have zero : ∀ l : List Nat, l.head? = some 48 → l.length = 1 → l = [48] := by
        intro l h1 h2
        cases l with
        | nil => simp at h2
        | cons x xs =>
          cases xs with
          | nil => simpa using h1
          | cons y ys => simp at h2
      by_cases hk : k.head? = some 48
      · have e : k = [48] := zero k hk (by tauto)
        by_cases hk' : k'.head? = some 48
        · rw [e, zero k' hk' (by tauto)]
        · have := digitsValue_pos k' hne' hd' hk'
          rw [h', ← h, e] at this
          simp [digitsValue] at this
      · by_cases hk' : k'.head? = some 48
        · have e : k' = [48] := zero k' hk' (by tauto)
          have := digitsValue_pos k hne hd hk
          rw [h, ← h', e] at this
          simp [digitsValue] at this
        · exact digitsValue_injective k k' hd hd' hk hk' (by rw [h, h'])
    · simp at h'
  · simp at h

theorem keyBefore_ne {k k' : JSString} (h : KeyBefore k k') : k ≠ k' := by
  intro e
  subst e
  unfold KeyBefore at h
  split at h
  · rename_i m n h1 h2
    rw [h1] at h2
    simp only [Option.some.injEq] at h2
    omega
  · rename_i h1 h2
    rw [h1] at h2
    simp at h2
  · exact h
  · exact h rfl

theorem hasProp_eq_false_iff (k : JSString) (ps : List (JSString × JSValue)) :
    hasProp k ps = false ↔ ∀ p ∈ ps, p.1 ≠ k := by
  induction ps with
  | nil => simp [hasProp, lookupProp]
  | cons p ps ih =>
    obtain ⟨a, b⟩ := p
    by_cases h : a = k
    · simp [hasProp, lookupProp, h]
    · simp only [hasProp, lookupProp, h, if_false] at ih ⊢
      simp [ih, h]

theorem keys_replaceProp (k : JSString) (v : JSValue) (ps : List (JSString × JSValue)) :
    (replaceProp k v ps).map Prod.fst = ps.map Prod.fst := by
  induction ps with
  | nil => rfl
  | cons p ps ih =>
    obtain ⟨a, b⟩ := p
    by_cases h : a = k <;> simp [replaceProp, h, ih]

theorem mem_insertIndexProp {n : Nat} {k : JSString} {v : JSValue}
    {ps : List (JSString × JSValue)} {p : JSString × JSValue}
    (h : p ∈ insertIndexProp n k v ps) : p = (k, v) ∨ p ∈ ps := by
  induction ps with
  | nil => simpa [insertIndexProp] using h
  | cons q ps ih =>
    obtain ⟨a, b⟩ := q
    simp only [insertIndexProp] at h
    split at h
    · split at h
      · rcases List.mem_cons.1 h with h | h
        · exact Or.inr (by simp [h])
        · rcases ih h with h | h
          · exact Or.inl h
          · exact Or.inr (List.mem_cons_of_mem _ h)
      · rcases List.mem_cons.1 h with h | h
        · exact Or.inl h
        · exact Or.inr h
    · rcases List.mem_cons.1 h with h | h
      · exact Or.inl h
      · exact Or.inr h

theorem mem_replaceProp {k : JSString} {v : JSValue}
    {ps : List (JSString × JSValue)} {p : JSString × JSValue}
    (h : p ∈ replaceProp k v ps) : p = (k, v) ∨ p ∈ ps := by
  induction ps with
  | nil => simp [replaceProp] at h
  | cons q ps ih =>
    obtain ⟨a, b⟩ := q
    simp only [replaceProp] at h
    split at h
    · rename_i hk
      rcases List.mem_cons.1 h with h | h
      · exact Or.inl (by rw [h, hk])
      · exact Or.inr (List.mem_cons_of_mem _ h)
    · rcases List.mem_cons.1 h with h | h
      · exact Or.inr (by simp [h])
      · rcases ih h with h | h
        · exact Or.inl h
        · exact Or.inr (List.mem_cons_of_mem _ h)

/-- An entry of the list after a property write is the entry written or an entry of
the list before. -/
theorem mem_setProp {k : JSString} {v : JSValue}
    {ps : List (JSString × JSValue)} {p : JSString × JSValue}
    (h : p ∈ setProp ps k v) : p = (k, v) ∨ p ∈ ps := by
  unfold setProp at h
  split at h
  · exact mem_replaceProp h
  · split at h
    · exact mem_insertIndexProp h
    · rcases List.mem_append.1 h with h | h
      · exact Or.inr h
      · exact Or.inl (by simpa using h)
theorem keyBefore_some_some {k k' : JSString} {m n : Nat} (h : arrayIndex? k = some m)
    (h' : arrayIndex? k' = some n) : KeyBefore k k' ↔ m < n := by
  simp [KeyBefore, h, h']

theorem keyBefore_some_none {k k' : JSString} {m : Nat} (h : arrayIndex? k = some m)
    (h' : arrayIndex? k' = none) : KeyBefore k k' := by
  simp [KeyBefore, h, h']

theorem keyBefore_none_some {k k' : JSString} {n : Nat} (h : arrayIndex? k = none)
    (h' : arrayIndex? k' = some n) : ¬ KeyBefore k k' := by
  simp [KeyBefore, h, h']

theorem keyBefore_none_none {k k' : JSString} (h : arrayIndex? k = none)
    (h' : arrayIndex? k' = none) : KeyBefore k k' ↔ k ≠ k' := by
  simp [KeyBefore, h, h']

theorem canon_cons {p : JSString × JSValue} {ps : List (JSString × JSValue)} :
    Canon (p :: ps) ↔ (∀ q ∈ ps, KeyBefore p.1 q.1) ∧ Canon ps := by
  simp [Canon, List.pairwise_cons]

theorem canon_insertIndexProp (n : Nat) (k : JSString) (v : JSValue)
    (hk : arrayIndex? k = some n) :
    ∀ (ps : List (JSString × JSValue)), Canon ps → (∀ p ∈ ps, p.1 ≠ k) →
      Canon (insertIndexProp n k v ps) := by
  intro ps
  induction ps with
  | nil => intro _ _; simp [insertIndexProp, Canon]
  | cons q ps ih =>
    obtain ⟨a, b⟩ := q
    intro hc hne
    obtain ⟨h1, h2⟩ := canon_cons.1 hc
    have hak : a ≠ k := hne (a, b) (by simp)
    simp only [insertIndexProp]
    cases hm : arrayIndex? a with
    | some m =>
      simp only
      split
      · rename_i hlt
        refine canon_cons.2 ⟨?_, ih h2 (fun p hp => hne p (List.mem_cons_of_mem _ hp))⟩
        intro q hq
        rcases mem_insertIndexProp hq with rfl | hq
        · exact (keyBefore_some_some hm hk).2 hlt
        · exact h1 q hq
      · have hnm : n < m := by
          rcases Nat.lt_or_ge n m with h | h
          · exact h
          · exact absurd (arrayIndex_injective hm (by rw [hk, show m = n by omega])) hak
        refine canon_cons.2 ⟨?_, hc⟩
        intro q hq
        rcases List.mem_cons.1 hq with rfl | hq
        · exact (keyBefore_some_some hk hm).2 hnm
        · have hb := h1 q hq
          cases hj : arrayIndex? q.1 with
          | some j =>
            have := (keyBefore_some_some hm hj).1 hb
            exact (keyBefore_some_some hk hj).2 (by omega)
          | none => exact keyBefore_some_none hk hj
    | none =>
      simp only
      refine canon_cons.2 ⟨?_, hc⟩
      intro q hq
      rcases List.mem_cons.1 hq with rfl | hq
      · exact keyBefore_some_none hk hm
      · have hb := h1 q hq
        cases hj : arrayIndex? q.1 with
        | some j => exact absurd hb (keyBefore_none_some hm hj)
        | none => exact keyBefore_some_none hk hj

theorem canon_append_single (k : JSString) (v : JSValue) (hk : arrayIndex? k = none)
    (ps : List (JSString × JSValue)) (hc : Canon ps) (hne : ∀ p ∈ ps, p.1 ≠ k) :
    Canon (ps ++ [(k, v)]) := by
  simp only [Canon, List.map_append, List.map_cons, List.map_nil, List.pairwise_append,
    List.pairwise_cons, List.not_mem_nil, false_implies, implies_true, List.Pairwise.nil,
    and_self, true_and, List.mem_singleton, forall_eq, List.mem_map, Prod.exists,
    exists_and_right, exists_eq_right, forall_exists_index]
  refine ⟨hc, ?_⟩
  intro a b hab
  cases ha : arrayIndex? a with
  | some m => exact keyBefore_some_none ha hk
  | none => exact (keyBefore_none_none ha hk).2 (hne (a, b) hab)

/-- A property write keeps a property list in enumeration order. -/
theorem canon_setProp (ps : List (JSString × JSValue)) (k : JSString) (v : JSValue)
    (hc : Canon ps) : Canon (setProp ps k v) := by
  unfold setProp
  split
  · simp only [Canon, keys_replaceProp]
    exact hc
  · rename_i hh
    have hne := (hasProp_eq_false_iff k ps).1 (by simpa using hh)
    split
    · rename_i n hn
      exact canon_insertIndexProp n k v hn ps hc hne
    · rename_i hn
      exact canon_append_single k v hn ps hc hne

theorem insertIndexProp_eq_append (n : Nat) (k : JSString) (v : JSValue) :
    ∀ (ps : List (JSString × JSValue)),
      (∀ p ∈ ps, ∃ m, arrayIndex? p.1 = some m ∧ m < n) →
      insertIndexProp n k v ps = ps ++ [(k, v)] := by
  intro ps
  induction ps with
  | nil => intro _; rfl
  | cons q ps ih =>
    obtain ⟨a, b⟩ := q
    intro h
    obtain ⟨m, hm, hlt⟩ := h (a, b) (by simp)
    simp only [insertIndexProp, hm, hlt, if_true, List.cons_append]
    rw [ih (fun p hp => h p (List.mem_cons_of_mem _ hp))]

/-- Creating the last property of a list in enumeration order appends it. -/
theorem setProp_of_canon_append (acc : List (JSString × JSValue)) (k : JSString)
    (v : JSValue) (hc : Canon (acc ++ [(k, v)])) : setProp acc k v = acc ++ [(k, v)] := by
  have hb : ∀ p ∈ acc, KeyBefore p.1 k := by
    intro p hp
    simp only [Canon, List.map_append, List.map_cons, List.map_nil,
      List.pairwise_append] at hc
    exact hc.2.2 p.1 (List.mem_map_of_mem _ hp) k (by simp)
  have hne : hasProp k acc = false :=
    (hasProp_eq_false_iff k acc).2 (fun p hp => keyBefore_ne (hb p hp))
  simp only [setProp, hne, Bool.false_eq_true, if_false]
  cases hk : arrayIndex? k with
  | none => rfl
  | some n =>
    simp only
    apply insertIndexProp_eq_append
    intro p hp
    cases hm : arrayIndex? p.1 with
    | none => exact absurd (hb p hp) (keyBefore_none_some hm hk)
    | some m => exact ⟨m, rfl, (keyBefore_some_some hm hk).1 (hb p hp)⟩

theorem canon_foldl_setProp (ps acc : List (JSString × JSValue)) (hc : Canon acc) :
    Canon (ps.foldl (fun a p => setProp a p.1 p.2) acc) := by
  induction ps generalizing acc with
  | nil => exact hc
  | cons p ps ih => exact ih _ (canon_setProp acc p.1 p.2 hc)

/-- A property list is in creation order exactly when its keys are in enumeration
order. -/
theorem inCreationOrder_iff_canon (ps : List (JSString × JSValue)) :
    InCreationOrder ps ↔ Canon ps := by
  constructor
  · intro h
    have := canon_foldl_setProp ps [] (by simp [Canon])
    rw [show ps.foldl (fun a p => setProp a p.1 p.2) [] = ps from h] at this
    exact this
  · intro h
    unfold InCreationOrder
    induction ps using List.reverseRecOn with
    | nil => rfl
    | append_singleton init p ih =>
      obtain ⟨k, v⟩ := p
      have hinit : Canon init := by
        simp only [Canon, List.map_append, List.pairwise_append] at h
        exact h.1
      rw [List.foldl_append, ih hinit]
      exact setProp_of_canon_append init k v h

/-- A property write keeps a property list in creation order. -/
theorem inCreationOrder_setProp (ps : List (JSString × JSValue)) (k : JSString) (v : JSValue)
    (h : InCreationOrder ps) : InCreationOrder (setProp ps k v) :=
  (inCreationOrder_iff_canon _).2 (canon_setProp ps k v ((inCreationOrder_iff_canon _).1 h))
/-! ## Well-formed values -/

mutual
/-- A well-formed value whose numbers print is lossless. -/
theorem lossless_of_wellFormed (fmt : ℚ → JSString) :
    ∀ (v : JSValue), WellFormed v → NumbersPrint fmt v → Lossless fmt v
  | .undefined, h, _ => by simp [WellFormed] at h
  | .null, _, _ => by simp [Lossless]
  | .bool _, _, _ => by simp [Lossless]
  | .num n, _, h => by simpa [Lossless, NumbersPrint] using h
  | .str s, h, _ => by simpa [Lossless, WellFormed] using h
  | .arr xs, h, h' => by
    simp only [WellFormed] at h
    simp only [NumbersPrint] at h'
    simp only [Lossless]
    exact losslessElems_of_wellFormed fmt xs h h'
  | .obj ps, h, h' => by
    simp only [WellFormed] at h
    simp only [NumbersPrint] at h'
    simp only [Lossless]
    exact ⟨losslessProps_of_wellFormed fmt ps h.1 h', h.2⟩
theorem losslessElems_of_wellFormed (fmt : ℚ → JSString) :
    ∀ (xs : List JSValue), WellFormedElems xs → NumbersPrintElems fmt xs →
      LosslessElems fmt xs
  | [], _, _ => by simp [LosslessElems]
  | x :: xs, h, h' => by
    simp only [WellFormedElems] at h
    simp only [NumbersPrintElems] at h'
    simp only [LosslessElems]
    exact ⟨lossless_of_wellFormed fmt x h.1 h'.1, losslessElems_of_wellFormed fmt xs h.2 h'.2⟩
theorem losslessProps_of_wellFormed (fmt : ℚ → JSString) :
    ∀ (ps : List (JSString × JSValue)), WellFormedProps ps → NumbersPrintProps fmt ps →
      LosslessProps fmt ps
  | [], _, _ => by simp [LosslessProps]
  | (k, v) :: ps, h, h' => by
    simp only [WellFormedProps] at h
    simp only [NumbersPrintProps] at h'
    simp only [LosslessProps]
    exact ⟨h.1, lossless_of_wellFormed fmt v h.2.1 h'.1,
      losslessProps_of_wellFormed fmt ps h.2.2 h'.2⟩
end

theorem wellFormedProps_iff (ps : List (JSString × JSValue)) :
    WellFormedProps ps ↔ ∀ p ∈ ps, IsUnits p.1 ∧ WellFormed p.2 := by
  induction ps with
  | nil => simp [WellFormedProps]
  | cons p ps ih =>
    obtain ⟨k, v⟩ := p
    simp only [WellFormedProps, ih, List.mem_cons, forall_eq_or_imp, and_assoc]

theorem wellFormedElems_iff (xs : List JSValue) :
    WellFormedElems xs ↔ ∀ x ∈ xs, WellFormed x := by
  induction xs with
  | nil => simp [WellFormedElems]
  | cons x xs ih => simp only [WellFormedElems, ih, List.mem_cons, forall_eq_or_imp]

/-- A property write keeps the property list of a well-formed object well formed. -/
theorem wellFormed_setProp (ps : List (JSString × JSValue)) (k : JSString) (v : JSValue)
    (hps : WellFormedProps ps ∧ InCreationOrder ps) (hk : IsUnits k) (hv : WellFormed v) :
    WellFormedProps (setProp ps k v) ∧ InCreationOrder (setProp ps k v) := by
  refine ⟨(wellFormedProps_iff _).2 ?_, inCreationOrder_setProp ps k v hps.2⟩
  intro p hp
  rcases mem_setProp hp with rfl | hp
  · exact ⟨hk, hv⟩
  · exact (wellFormedProps_iff _).1 hps.1 p hp

/-! ## The values `JSON.parse` returns are well formed -/

theorem consUnit_eq_some {u : Nat} {o : Option (JSString × List Nat)} {s : JSString}
    {rest : List Nat} (h : consUnit u o = some (s, rest)) :
    ∃ s', o = some (s', rest) ∧ s = u :: s' := by
  cases o with
  | none => simp [consUnit] at h
  | some p =>
    obtain ⟨a, b⟩ := p
    simp only [consUnit, Option.some.injEq, Prod.mk.injEq] at h
    exact ⟨a, by rw [h.2], h.1.symm⟩

theorem hexValue_lt {c u : Nat} (h : hexValue c = some u) : u < 16 := by
  unfold hexValue at h
  split at h
  · simp only [Option.some.injEq] at h; omega
  · split at h
    · simp only [Option.some.injEq] at h; omega
    · split at h
      · simp only [Option.some.injEq] at h; omega
      · simp at h

theorem hex4_lt {a b c d u : Nat} (h : hex4 a b c d = some u) : u < 65536 := by
  unfold hex4 at h
  split at h
  · rename_i x y z w hx hy hz hw
    have := hexValue_lt hx
    have := hexValue_lt hy
    have := hexValue_lt hz
    have := hexValue_lt hw
    simp only [Option.some.injEq] at h
    omega
  · simp at h

theorem simpleEscape_lt {e u : Nat} (h : simpleEscape e = some u) : u < 65536 := by
  unfold simpleEscape at h
  repeat' split at h
  all_goals first
    | (simp only [Option.some.injEq] at h; omega)
    | simp at h

theorem isUnits_cons {c : Nat} {cs : List Nat} : IsUnits (c :: cs) ↔ c < 65536 ∧ IsUnits cs := by
  simp [IsUnits]

theorem parseCharsAux_units : ∀ (f : Nat) (cs : List Nat) (s : JSString) (rest : List Nat),
    IsUnits cs → parseCharsAux f cs = some (s, rest) → IsUnits s ∧ IsUnits rest := by
  intro f
  induction f with
  | zero => intro cs s rest _ h; simp [parseCharsAux] at h
  | succ f ih =>
    intro cs s rest hcs h
    cases cs with
    | nil => simp [parseCharsAux] at h
    | cons c tl =>
      obtain ⟨hc, htl⟩ := isUnits_cons.1 hcs
      simp only [parseCharsAux] at h
      split at h
      · simp only [Option.some.injEq, Prod.mk.injEq] at h
        obtain ⟨rfl, rfl⟩ := h
        exact ⟨by simp [IsUnits], htl⟩
      · split at h
        · split at h
          · simp at h
          · rename_i e rest1
            obtain ⟨he, hrest1⟩ := isUnits_cons.1 htl
            split at h
            · split at h
              · rename_i h1 h2 h3 h4 rest2
                split at h
                · rename_i u hu
                  obtain ⟨s', hs', rfl⟩ := consUnit_eq_some h
                  have hr2 : IsUnits rest2 := by
                    intro x hx
                    exact hrest1 x (by simp [hx])
                  obtain ⟨i1, i2⟩ := ih rest2 s' rest hr2 hs'
                  exact ⟨isUnits_cons.2 ⟨hex4_lt hu, i1⟩, i2⟩
                · simp at h
              · simp at h
            · split at h
              · rename_i u hu
                obtain ⟨s', hs', rfl⟩ := consUnit_eq_some h
                obtain ⟨i1, i2⟩ := ih rest1 s' rest hrest1 hs'
                exact ⟨isUnits_cons.2 ⟨simpleEscape_lt hu, i1⟩, i2⟩
              · simp at h
        · split at h
          · simp at h
          · obtain ⟨s', hs', rfl⟩ := consUnit_eq_some h
            obtain ⟨i1, i2⟩ := ih tl s' rest htl hs'
            exact ⟨isUnits_cons.2 ⟨hc, i1⟩, i2⟩

theorem parseChars_units {cs : List Nat} {s : JSString} {rest : List Nat}
    (hcs : IsUnits cs) (h : parseChars cs = some (s, rest)) : IsUnits s ∧ IsUnits rest :=
  parseCharsAux_units _ cs s rest hcs h

theorem skipWs_subset : ∀ (cs : List Nat), ∀ c ∈ skipWs cs, c ∈ cs := by
  intro cs
  induction cs with
  | nil => simp [skipWs]
  | cons x xs ih =>
    intro c hc
    simp only [skipWs] at hc
    split at hc
    · exact List.mem_cons_of_mem _ (ih c hc)
    · exact hc

theorem isUnits_skipWs {cs : List Nat} (h : IsUnits cs) : IsUnits (skipWs cs) :=
  fun c hc => h c (skipWs_subset cs c hc)

theorem takeDigits_subset : ∀ (cs : List Nat), ∀ c ∈ (takeDigits cs).2, c ∈ cs := by
  intro cs
  induction cs with
  | nil => simp [takeDigits]
  | cons x xs ih =>
    intro c hc
    simp only [takeDigits] at hc
    split at hc
    · exact List.mem_cons_of_mem _ (ih c hc)
    · exact hc

theorem parseFraction_subset {cs fs r : List Nat} (h : parseFraction cs = some (fs, r)) :
    ∀ c ∈ r, c ∈ cs := by
  unfold parseFraction at h
  split at h
  · rename_i c rest
    split at h
    · split at h
      · simp at h
      · simp only [Option.some.injEq] at h
        intro x hx
        have : r = (takeDigits rest).2 := by rw [h]
        rw [this] at hx
        exact List.mem_cons_of_mem _ (takeDigits_subset rest x hx)
    · simp only [Option.some.injEq, Prod.mk.injEq] at h
      intro x hx
      rw [← h.2] at hx
      exact hx
  · simp only [Option.some.injEq, Prod.mk.injEq] at h
    intro x hx
    rw [← h.2] at hx
    exact hx

theorem parseExponent_subset {cs r : List Nat} {ex : Int}
    (h : parseExponent cs = some (ex, r)) : ∀ c ∈ r, c ∈ cs := by
  unfold parseExponent at h
  split at h
  · rename_i c rest
    split at h
    · split at h
      · rename_i d rest1
        split at h
        · split at h
          · simp at h
          · simp only [Option.some.injEq, Prod.mk.injEq] at h
            intro x hx
            rw [← h.2] at hx
            exact List.mem_cons_of_mem _ (List.mem_cons_of_mem _ (takeDigits_subset rest1 x hx))
        · split at h
          · split at h
            · simp at h
            · simp only [Option.some.injEq, Prod.mk.injEq] at h
              intro x hx
              rw [← h.2] at hx
              exact List.mem_cons_of_mem _
                (List.mem_cons_of_mem _ (takeDigits_subset rest1 x hx))
          · split at h
            · simp at h
            · simp only [Option.some.injEq, Prod.mk.injEq] at h
              intro x hx
              rw [← h.2] at hx
              exact List.mem_cons_of_mem _ (takeDigits_subset _ x hx)
      · simp at h
    · simp only [Option.some.injEq, Prod.mk.injEq] at h
      intro x hx
      rw [← h.2] at hx
      exact hx
  · simp only [Option.some.injEq, Prod.mk.injEq] at h
    intro x hx
    rw [← h.2] at hx
    exact hx

theorem parseUnsigned_spec {neg : Bool} {cs r : List Nat} {v : JSValue}
    (h : parseUnsigned neg cs = some (v, r)) : (∃ n, v = .num n) ∧ ∀ c ∈ r, c ∈ cs := by
  unfold parseUnsigned at h
  split at h
  · rename_i c rest
    split at h
    · simp only at h
      split at h
      · simp at h
      · rename_i fs r1 hf
        split at h
        · simp at h
        · rename_i ex r2 he
          simp only [Option.some.injEq, Prod.mk.injEq] at h
          refine ⟨⟨_, h.1.symm⟩, ?_⟩
          intro x hx
          rw [← h.2] at hx
          have h1 := parseExponent_subset he x hx
          have h2 := parseFraction_subset hf x h1
          split at h2
          · exact List.mem_cons_of_mem _ h2
          · exact takeDigits_subset _ x h2
    · simp at h
  · simp at h

theorem parseNumber_spec {cs r : List Nat} {v : JSValue}
    (h : parseNumber cs = some (v, r)) : (∃ n, v = .num n) ∧ ∀ c ∈ r, c ∈ cs := by
  unfold parseNumber at h
  split at h
  · rename_i c rest
    split at h
    · obtain ⟨h1, h2⟩ := parseUnsigned_spec h
      exact ⟨h1, fun x hx => List.mem_cons_of_mem _ (h2 x hx)⟩
    · exact parseUnsigned_spec h
  · simp at h

theorem expectLit_spec {lit cs r : List Nat} {v w : JSValue}
    (h : expectLit lit v cs = some (w, r)) : w = v ∧ ∀ c ∈ r, c ∈ cs := by
  unfold expectLit at h
  split at h
  · simp only [Option.some.injEq, Prod.mk.injEq] at h
    refine ⟨h.1.symm, ?_⟩
    intro x hx
    rw [← h.2] at hx
    exact List.mem_of_mem_drop hx
  · simp at h

/-- The three readers return well-formed values and leave code units. -/
theorem parse_wellFormed (f : Nat) :
    (∀ (cs : List Nat) (v : JSValue) (r : List Nat), IsUnits cs →
      parseValue f cs = some (v, r) → WellFormed v ∧ IsUnits r) ∧
    (∀ (cs : List Nat) (xs : List JSValue) (r : List Nat), IsUnits cs →
      parseElems f cs = some (xs, r) → WellFormedElems xs ∧ IsUnits r) ∧
    (∀ (acc : List (JSString × JSValue)) (cs : List Nat) (ps : List (JSString × JSValue))
      (r : List Nat), IsUnits cs → WellFormedProps acc ∧ InCreationOrder acc →
      parseMembers f acc cs = some (ps, r) →
      (WellFormedProps ps ∧ InCreationOrder ps) ∧ IsUnits r) := by
  induction f with
  | zero =>
    refine ⟨?_, ?_, ?_⟩
    · intro cs v r _ h; simp [parseValue] at h
    · intro cs xs r _ h; simp [parseElems] at h
    · intro acc cs ps r _ _ h; simp [parseMembers] at h
  | succ f ih =>
    obtain ⟨ihv, ihe, ihm⟩ := ih
    refine ⟨?_, ?_, ?_⟩
    · intro cs v r hcs h
      simp only [parseValue] at h
      have hsk := isUnits_skipWs hcs
      split at h
      · simp at h
      · rename_i c rest hs
        rw [hs] at hsk
        obtain ⟨-, hrest⟩ := isUnits_cons.1 hsk
        split at h
        · -- string
          split at h
          · rename_i s r1 hp
            simp only [Option.some.injEq, Prod.mk.injEq] at h
            obtain ⟨rfl, rfl⟩ := h
            obtain ⟨h1, h2⟩ := parseChars_units hrest hp
            exact ⟨by simpa [WellFormed] using h1, h2⟩
          · simp at h
        · split at h
          · -- array
            have hsk2 := isUnits_skipWs hrest
            split at h
            · simp at h
            · rename_i d r1 hs2
              rw [hs2] at hsk2
              split at h
              · simp only [Option.some.injEq, Prod.mk.injEq] at h
                obtain ⟨rfl, rfl⟩ := h
                exact ⟨by simp [WellFormed, WellFormedElems], (isUnits_cons.1 hsk2).2⟩
              · split at h
                · rename_i xs r2 hp
                  simp only [Option.some.injEq, Prod.mk.injEq] at h
                  obtain ⟨rfl, rfl⟩ := h
                  obtain ⟨h1, h2⟩ := ihe _ _ _ hsk2 hp
                  exact ⟨by simpa [WellFormed] using h1, h2⟩
                · simp at h
          · split at h
            · -- object
              have hsk2 := isUnits_skipWs hrest
              split at h
              · simp at h
              · rename_i d r1 hs2
                rw [hs2] at hsk2
                split at h
                · simp only [Option.some.injEq, Prod.mk.injEq] at h
                  obtain ⟨rfl, rfl⟩ := h
                  exact ⟨by simp [WellFormed, WellFormedProps, InCreationOrder],
                    (isUnits_cons.1 hsk2).2⟩
                · split at h
                  · rename_i ps r2 hp
                    simp only [Option.some.injEq, Prod.mk.injEq] at h
                    obtain ⟨rfl, rfl⟩ := h
                    obtain ⟨h1, h2⟩ := ihm [] _ _ _ hsk2
                      (by simp [WellFormedProps, InCreationOrder]) hp
                    exact ⟨by simpa [WellFormed] using h1, h2⟩
                  · simp at h
            · split at h
              · obtain ⟨rfl, h2⟩ := expectLit_spec h
                exact ⟨by simp [WellFormed], fun x hx => hsk x (h2 x hx)⟩
              · split at h
                · obtain ⟨rfl, h2⟩ := expectLit_spec h
                  exact ⟨by simp [WellFormed], fun x hx => hsk x (h2 x hx)⟩
                · split at h
                  · obtain ⟨rfl, h2⟩ := expectLit_spec h
                    exact ⟨by simp [WellFormed], fun x hx => hsk x (h2 x hx)⟩
                  · obtain ⟨⟨n, rfl⟩, h2⟩ := parseNumber_spec h
                    exact ⟨by simp [WellFormed], fun x hx => hsk x (h2 x hx)⟩
    · intro cs xs r hcs h
      simp only [parseElems] at h
      split at h
      · simp at h
      · rename_i v r0 hp
        obtain ⟨hv, hr0⟩ := ihv _ _ _ hcs hp
        have hsk := isUnits_skipWs hr0
        split at h
        · simp at h
        · rename_i c r1 hs
          rw [hs] at hsk
          obtain ⟨-, hr1⟩ := isUnits_cons.1 hsk
          split at h
          · split at h
            · rename_i ys r2 hp2
              simp only [Option.some.injEq, Prod.mk.injEq] at h
              obtain ⟨rfl, rfl⟩ := h
              obtain ⟨h1, h2⟩ := ihe _ _ _ hr1 hp2
              exact ⟨by simp only [WellFormedElems]; exact ⟨hv, h1⟩, h2⟩
            · simp at h
          · split at h
            · simp only [Option.some.injEq, Prod.mk.injEq] at h
              obtain ⟨rfl, rfl⟩ := h
              exact ⟨by simp only [WellFormedElems]; exact ⟨hv, trivial⟩, hr1⟩
            · simp at h
    · intro acc cs ps r hcs hacc h
      simp only [parseMembers] at h
      have hsk := isUnits_skipWs hcs
      split at h
      · simp at h
      · rename_i q r0 hs
        rw [hs] at hsk
        obtain ⟨-, hr0⟩ := isUnits_cons.1 hsk
        split at h
        · split at h
          · simp at h
          · rename_i k r1 hk
            obtain ⟨hku, hr1⟩ := parseChars_units hr0 hk
            have hsk1 := isUnits_skipWs hr1
            split at h
            · simp at h
            · rename_i c r2 hs1
              rw [hs1] at hsk1
              obtain ⟨-, hr2⟩ := isUnits_cons.1 hsk1
              split at h
              · split at h
                · simp at h
                · rename_i v r3 hp
                  obtain ⟨hv, hr3⟩ := ihv _ _ _ hr2 hp
                  have hsk3 := isUnits_skipWs hr3
                  have hset := wellFormed_setProp acc k v hacc hku hv
                  split at h
                  · simp at h
                  · rename_i d r4 hs3
                    rw [hs3] at hsk3
                    obtain ⟨-, hr4⟩ := isUnits_cons.1 hsk3
                    split at h
                    · exact ihm _ _ _ _ hr4 hset h
                    · split at h
                      · simp only [Option.some.injEq, Prod.mk.injEq] at h
                        obtain ⟨rfl, rfl⟩ := h
                        exact ⟨hset, hr4⟩
                      · simp at h
              · simp at h
        · simp at h

/-- The value `JSON.parse` returns for a text of code units is well formed. -/
theorem JSONparse_wellFormed {text : JSString} {v : JSValue} (ht : IsUnits text)
    (h : JSONparse text = some v) : WellFormed v := by
  unfold JSONparse at h
  split at h
  · rename_i w rest hp
    split at h
    · simp only [Option.some.injEq] at h
      subst h
      exact ((parse_wellFormed _).1 _ _ _ ht hp).1
    · simp at h
  · simp at h

/-! ## The states the store reaches are well formed -/

theorem fiveFields_inCreationOrder (a b c d e : JSValue) :
    InCreationOrder [(js "id", a), (js "text", b), (js "completed", c), (js "createdAt", d),
      (js "updatedAt", e)] := by
  simp [InCreationOrder, setProp, hasProp, lookupProp, arrayIndex_id, arrayIndex_text,
    arrayIndex_completed, arrayIndex_createdAt, arrayIndex_updatedAt, js_id, js_text,
    js_completed, js_createdAt, js_updatedAt]

theorem createTask_wellFormed {env : Env} {text task : JSValue}
    (he : IsUnits env.isoNow) (ht : ∀ s, text = .str s → IsUnits s)
    (h : createTask env text = some task) : WellFormed task := by
  cases text with
  | str s =>
    simp only [createTask, Option.some.injEq] at h
    subst h
    simp only [WellFormed, WellFormedProps]
    exact ⟨⟨isUnits_js_id, trivial, isUnits_js_text, isUnits_trim (ht s rfl),
      isUnits_js_completed, trivial, isUnits_js_createdAt, he, isUnits_js_updatedAt, trivial,
      trivial⟩, fiveFields_inCreationOrder _ _ _ _ _⟩
  | undefined => simp [createTask] at h
  | null => simp [createTask] at h
  | bool b => simp [createTask] at h
  | num n => simp [createTask] at h
  | arr xs => simp [createTask] at h
  | obj ps => simp [createTask] at h

theorem putProp_wellFormed {t t' : JSValue} {k : JSString} {x : JSValue}
    (ht : WellFormed t) (hk : IsUnits k) (hx : WellFormed x)
    (h : putProp t k x = some t') : WellFormed t' := by
  cases t with
  | obj ps =>
    simp only [putProp, Option.some.injEq] at h
    subst h
    simp only [WellFormed] at ht ⊢
    exact wellFormed_setProp ps k x ht hk hx
  | undefined => simp [putProp] at h
  | null => simp [putProp] at h
  | bool b => simp [putProp] at h
  | num n => simp [putProp] at h
  | str s => simp [putProp] at h
  | arr xs => simp [putProp] at h

/-- Each call with well-formed arguments keeps the tasks well formed. -/
theorem perform_wellFormed (env : Env) (st : Store) (call : Call)
    (he : IsUnits env.isoNow) (hc : WellFormedCall call)
    (h0 : ∀ t ∈ st.tasks, WellFormed t) :
    ∀ t ∈ (perform env st call).store.tasks, WellFormed t := by
  have hupd : ∀ t t', WellFormed t →
      putProp t (js "updatedAt") (.str env.isoNow) = some t' → WellFormed t' :=
    fun _ _ ht h => putProp_wellFormed ht isUnits_js_updatedAt (by simpa [WellFormed] using he) h
  cases call with
  | add text =>
    exact addTask_preserves WellFormed env st text
      (fun _ _ hct => createTask_wellFormed he hc hct) h0
  | toggle index =>
    exact toggleTask_preserves WellFormed env st index
      (fun _ _ _ ht h => putProp_wellFormed ht isUnits_js_completed (by simp [WellFormed]) h)
      hupd h0
  | delete index => exact deleteTask_preserves WellFormed env st index h0
  | update index newText =>
    exact updateTask_preserves WellFormed env st index newText
      (fun s _ _ hs _ ht h => putProp_wellFormed ht isUnits_js_text
        (by simpa [WellFormed] using isUnits_trim (hc s hs)) h)
      hupd h0

/-- The tasks the constructor loads from a stored item of code units are well
formed. -/
theorem construct_wellFormed (blob : Option JSString) (hb : ∀ b, blob = some b → IsUnits b) :
    ∀ t ∈ (construct blob).tasks, WellFormed t := by
  have htext : IsUnits (blob.getD (js "null")) := by
    cases blob with
    | none => unfold IsUnits; decide
    | some b => exact hb b rfl
  simp only [construct, loadTasks]
  split
  · rename_i tasks hp
    have hwf := JSONparse_wellFormed htext hp
    split
    · cases tasks with
      | arr xs =>
        simp only [WellFormed] at hwf
        exact (wellFormedElems_iff xs).1 hwf
      | undefined => simp [arrayElems]
      | null => simp [arrayElems]
      | bool b => simp [arrayElems]
      | num n => simp [arrayElems]
      | str s => simp [arrayElems]
      | obj ps => simp [arrayElems]
    · simp
  · simp

/-- Every state the store reaches, from a stored item of code units and by calls with
well-formed arguments, holds well-formed tasks. -/
theorem reachable_wellFormed (blob : Option JSString) (calls : List (Env × Call))
    (hb : ∀ b, blob = some b → IsUnits b)
    (hcalls : ∀ c ∈ calls, IsUnits c.1.isoNow ∧ WellFormedCall c.2) :
    ∀ t ∈ (run (construct blob) calls).tasks, WellFormed t := by
  have h : ∀ (cs : List (Env × Call)) (st : Store),
      (∀ c ∈ cs, IsUnits c.1.isoNow ∧ WellFormedCall c.2) →
      (∀ t ∈ st.tasks, WellFormed t) → ∀ t ∈ (run st cs).tasks, WellFormed t := by
    intro cs
    induction cs with
    | nil => intro st _ h; exact h
    | cons c cs ih =>
      intro st hcs h
      obtain ⟨e, call⟩ := c
      have hc := hcs (e, call) (by simp)
      exact ih _ (fun c hc' => hcs c (List.mem_cons_of_mem _ hc'))
        (perform_wellFormed e st call hc.1 hc.2 h)
  exact h calls _ hcalls (construct_wellFormed blob hb)

/-! ## Round trip through the storage -/

theorem load_stringify_of_lossless (fmt : ℚ → JSString) (tasks : List JSValue)
    (hv : validateTasks (.arr tasks) = true) (hl : ∀ t ∈ tasks, Lossless fmt t) :
    loadTasks (some (JSONstringify fmt tasks)) = tasks := by
  simp [loadTasks, JSONparse_JSONstringify fmt tasks hl, hv, arrayElems]

/-- C8 (amended): for every task sequence the store can hold (an array `validateTasks`
accepts, of well-formed values) in which no number is NaN, infinite or negative zero
(every number is written as a numeral that reads back as the same number), a
successful `save` followed by `loadTasks` on the written item reproduces the sequence
itself: the same tasks in the same order with every property (`id`, `text`,
`completed`, `createdAt`, `updatedAt` among them) preserved; in particular the reloaded
payload passes `validateTasks` and is not replaced by the empty sequence. -/
theorem save_then_load (env : Env) (st : Store)
    (hv : validateTasks (.arr st.tasks) = true)
    (hwf : ∀ t ∈ st.tasks, WellFormed t)
    (hnum : ∀ t ∈ st.tasks, NumbersPrint env.fmt t)
    (hw : env.setItemOk (JSONstringify env.fmt st.tasks) = true) :
    (save env st).1.blob = some (JSONstringify env.fmt st.tasks) ∧
    JSONparse (JSONstringify env.fmt st.tasks) = some (.arr st.tasks) ∧
    loadTasks (save env st).1.blob = st.tasks ∧
    (construct (save env st).1.blob).tasks = st.tasks ∧
    validateTasks (.arr (loadTasks (save env st).1.blob)) = true := by
  have hl : ∀ t ∈ st.tasks, Lossless env.fmt t :=
    fun t ht => lossless_of_wellFormed env.fmt t (hwf t ht) (hnum t ht)
  have hb : (save env st).1.blob = some (JSONstringify env.fmt st.tasks) := by
    simp [save, hw]
  have hload := load_stringify_of_lossless env.fmt st.tasks hv hl
  refine ⟨hb, JSONparse_JSONstringify env.fmt st.tasks hl, ?_, ?_, ?_⟩
  · rw [hb, hload]
  · simp only [construct]
    rw [hb, hload]
  · rw [hb, hload]
    exact hv

theorem sampleStore_wellFormed : ∀ t ∈ sampleStore.tasks, WellFormed t := by
  intro t ht
  simp only [sampleStore, sampleTask, List.mem_cons, List.mem_singleton, List.not_mem_nil,
    or_false] at ht
  rcases ht with rfl | rfl
  · simp only [WellFormed, WellFormedProps]
    exact ⟨⟨isUnits_js_id, trivial, isUnits_js_text, by unfold IsUnits; decide,
      isUnits_js_completed, trivial, isUnits_js_createdAt, by unfold IsUnits; decide,
      isUnits_js_updatedAt, trivial, trivial⟩, fiveFields_inCreationOrder _ _ _ _ _⟩
  · simp only [WellFormed, WellFormedProps]
    exact ⟨⟨isUnits_js_id, trivial, isUnits_js_text, by unfold IsUnits; decide,
      isUnits_js_completed, trivial, isUnits_js_createdAt, by unfold IsUnits; decide,
      isUnits_js_updatedAt, by unfold IsUnits; decide, trivial⟩,
      fiveFields_inCreationOrder _ _ _ _ _⟩

theorem sampleStore_numbersPrint : ∀ t ∈ sampleStore.tasks, NumbersPrint sampleEnv.fmt t := by
  intro t ht
  simp only [sampleStore, sampleTask, List.mem_cons, List.mem_singleton, List.not_mem_nil,
    or_false] at ht
  rcases ht with rfl | rfl
  · simp only [NumbersPrint, NumbersPrintProps, and_true, true_and]
    exact numberPrints_of_int _ 1 rfl (by decide)
  · simp only [NumbersPrint, NumbersPrintProps, and_true, true_and]
    exact numberPrints_of_int _ 2 rfl (by decide)

theorem save_then_load_witness :
    (validateTasks (.arr sampleStore.tasks) = true ∧
      (∀ t ∈ sampleStore.tasks, WellFormed t) ∧
      (∀ t ∈ sampleStore.tasks, NumbersPrint sampleEnv.fmt t) ∧
      sampleEnv.setItemOk (JSONstringify sampleEnv.fmt sampleStore.tasks) = true) ∧
    ((save sampleEnv sampleStore).1.blob = some (JSONstringify sampleEnv.fmt sampleStore.tasks) ∧
    JSONparse (JSONstringify sampleEnv.fmt sampleStore.tasks) = some (.arr sampleStore.tasks) ∧
    loadTasks (save sampleEnv sampleStore).1.blob = sampleStore.tasks ∧
    (construct (save sampleEnv sampleStore).1.blob).tasks = sampleStore.tasks ∧
    validateTasks (.arr (loadTasks (save sampleEnv sampleStore).1.blob)) = true) :=
  ⟨⟨by decide, sampleStore_wellFormed, sampleStore_numbersPrint, rfl⟩,
    save_then_load sampleEnv sampleStore (by decide) sampleStore_wellFormed
      sampleStore_numbersPrint rfl⟩

/-- In every state the store reaches, from a stored item of code units and by calls
with well-formed arguments, whose numbers print, a successful `save` followed by
`loadTasks` reproduces the task sequence. -/
theorem reachable_save_then_load (env : Env) (blob : Option JSString)
    (calls : List (Env × Call)) (hb : ∀ b, blob = some b → IsUnits b)
    (hcalls : ∀ c ∈ calls, IsUnits c.1.isoNow ∧ WellFormedCall c.2)
    (hnum : ∀ t ∈ (run (construct blob) calls).tasks, NumbersPrint env.fmt t)
    (hw : env.setItemOk (JSONstringify env.fmt (run (construct blob) calls).tasks) = true) :
    loadTasks (save env (run (construct blob) calls)).1.blob =
      (run (construct blob) calls).tasks := by
  have hl : ∀ t ∈ (run (construct blob) calls).tasks, Lossless env.fmt t :=
    fun t ht => lossless_of_wellFormed env.fmt t
      (reachable_wellFormed blob calls hb hcalls t ht) (hnum t ht)
  have hbl : (save env (run (construct blob) calls)).1.blob =
      some (JSONstringify env.fmt (run (construct blob) calls).tasks) := by
    simp [save, hw]
  rw [hbl]
  exact load_stringify_of_lossless env.fmt _ (reachable_valid blob calls) hl
/-- C8 (as stated, refuted): the store can hold a sequence that does not survive
`save` and `loadTasks`.  The item `infiniteIdBlob` loads to one task whose `id` is
`Infinity`; `JSON.stringify` writes that `id` as `null`, which `validateTasks` rejects
on the way back, so the reloaded sequence is empty. -/
theorem infinite_id_lost :
    (construct (some infiniteIdBlob)).tasks.length = 1 ∧
    (save sampleEnv (construct (some infiniteIdBlob))).1.blob = some (js
      "[\x7b\"id\":null,\"text\":\"a\",\"completed\":false,\"createdAt\":\"c\"\x7d]") ∧
    (loadTasks (save sampleEnv (construct (some infiniteIdBlob))).1.blob).length = 0 ∧
    ¬ ∀ (env : Env) (blob : Option JSString) (calls : List (Env × Call)),
      env.setItemOk (JSONstringify env.fmt (run (construct blob) calls).tasks) = true →
      loadTasks (save env (run (construct blob) calls)).1.blob =
        (run (construct blob) calls).tasks := by
  have h1 : (construct (some infiniteIdBlob)).tasks.length = 1 := by decide!
  have h3 : (loadTasks (save sampleEnv (construct (some infiniteIdBlob))).1.blob).length = 0 := by
    decide!
  refine ⟨h1, by decide!, h3, ?_⟩
  intro h
  have h4 := h sampleEnv (some infiniteIdBlob) [] rfl
  simp only [run] at h4
  rw [h4, h1] at h3
  exact absurd h3 (by decide)

end ToDoApp
